import Mathlib

/-!
Verification of the symbolic-operator core specified for the
`__equs__.Python` community-day material: fermionic and qubit operators as
canonical term-to-coefficient mappings, the normal-ordering multiplication
rule, the Jordan-Wigner and Bravyi-Kitaev transforms, sparse
materialization into matrices, and models of the QAOA notebook functions
(`pauli_sum_maxcut`, `run_qaoa`).
-/

set_option maxHeartbeats 1000000
set_option maxRecDepth 4096
set_option linter.unusedSectionVars false

namespace EqusPy

/-- Modelled from the spec: exact scalar arithmetic for operator
coefficients.  A dyadic rational `num / 2 ^ exp` in canonical form (odd
numerator or zero exponent); every coefficient arising in the verified
material is dyadic, so the spec's complex scalars are realised exactly. -/
structure Dyad where
  num : ℤ
  exp : ℕ
  canon : num % 2 = 1 ∨ exp = 0

instance : DecidableEq Dyad := fun x y =>
  if h : x.num = y.num ∧ x.exp = y.exp then
    .isTrue (by
      obtain ⟨h1, h2⟩ := h
      cases x; cases y
      simp only at h1 h2
      subst h1; subst h2
      rfl)
  else
    .isFalse fun hh => h (by rw [hh]; exact ⟨rfl, rfl⟩)

namespace Dyad

@[ext] theorem extD {x y : Dyad} (h1 : x.num = y.num) (h2 : x.exp = y.exp) : x = y := by
  cases x; cases y
  simp only at h1 h2
  subst h1; subst h2
  rfl

/-- Remove factors of two from the numerator. -/
def dnorm : ℤ → ℕ → ℤ × ℕ
  | n, 0 => (n, 0)
  | n, e + 1 => if n % 2 = 0 then dnorm (n / 2) e else (n, e + 1)

theorem dnorm_canon (n : ℤ) (e : ℕ) :
    (dnorm n e).1 % 2 = 1 ∨ (dnorm n e).2 = 0 := by
  induction e generalizing n with
  | zero => exact Or.inr rfl
  | succ e ih =>
    rw [dnorm]
    by_cases h : n % 2 = 0
    · rw [if_pos h]; exact ih (n / 2)
    · rw [if_neg h]
      exact Or.inl (by omega)

/-- Build the canonical dyadic with value `n / 2 ^ e`. -/
def mk' (n : ℤ) (e : ℕ) : Dyad := ⟨(dnorm n e).1, (dnorm n e).2, dnorm_canon n e⟩

instance : Zero Dyad := ⟨⟨0, 0, Or.inr rfl⟩⟩
instance : One Dyad := ⟨⟨1, 0, Or.inr rfl⟩⟩
instance : Add Dyad :=
  ⟨fun x y =>
    mk' (x.num * 2 ^ (max x.exp y.exp - x.exp) + y.num * 2 ^ (max x.exp y.exp - y.exp))
      (max x.exp y.exp)⟩
instance : Mul Dyad := ⟨fun x y => mk' (x.num * y.num) (x.exp + y.exp)⟩
instance : Neg Dyad :=
  ⟨fun x =>
    ⟨-x.num, x.exp, by
      rcases x.canon with h | h
      · exact Or.inl (by omega)
      · exact Or.inr h⟩⟩

/-- The rational value of a dyadic scalar. -/
def toQ (d : Dyad) : ℚ := (d.num : ℚ) / 2 ^ d.exp

theorem dnorm_val (n : ℤ) (e : ℕ) :
    ((dnorm n e).1 : ℚ) / 2 ^ (dnorm n e).2 = (n : ℚ) / 2 ^ e := by
  induction e generalizing n with
  | zero => rfl
  | succ e ih =>
    rw [dnorm]
    by_cases h : n % 2 = 0
    · rw [if_pos h, ih (n / 2)]
      have h3 : ((n / 2 : ℤ) : ℚ) = (n : ℚ) / 2 := by
        rw [eq_div_iff (by norm_num : (2 : ℚ) ≠ 0)]
        exact_mod_cast (by omega : n / 2 * 2 = n)
      rw [h3, pow_succ, div_div]
      rw [mul_comm ((2 : ℚ) ^ e) 2, ← div_div]
    · rw [if_neg h]

theorem toQ_mk' (n : ℤ) (e : ℕ) : toQ (mk' n e) = (n : ℚ) / 2 ^ e := dnorm_val n e

theorem eq_zero_of_num_eq_zero {d : Dyad} (h : d.num = 0) : d = 0 := by
  have he : d.exp = 0 := by
    rcases d.canon with h2 | h2
    · omega
    · exact h2
  ext
  · exact h
  · exact he

theorem aux_exp_not_lt {d1 d2 : Dyad}
    (h3 : d1.num * 2 ^ d2.exp = d2.num * 2 ^ d1.exp) (hlt : d1.exp < d2.exp) :
    False := by
  have he2 : d2.exp ≠ 0 := by omega
  have hodd : d2.num % 2 = 1 := d2.canon.resolve_right he2
  obtain ⟨k, hk⟩ : ∃ k, d2.exp - d1.exp = k + 1 := ⟨d2.exp - d1.exp - 1, by omega⟩
  have hsplit : (2 : ℤ) ^ d2.exp = 2 ^ d1.exp * 2 ^ (k + 1) := by
    rw [← pow_add]
    congr 1
    omega
  rw [hsplit] at h3
  have hpos : (0 : ℤ) < 2 ^ d1.exp := by positivity
  have hcancel : d2.num = d1.num * 2 ^ (k + 1) := by
    have h4 : d1.num * (2 ^ d1.exp * 2 ^ (k + 1)) = d2.num * 2 ^ d1.exp := h3
    have h5 : (d1.num * 2 ^ (k + 1)) * 2 ^ d1.exp = d2.num * 2 ^ d1.exp := by
      rw [← h4]; ring
    exact (mul_right_cancel₀ (by positivity) h5).symm
  have heven : d2.num % 2 = 0 := by
    obtain ⟨y, hy⟩ : ∃ y, d2.num = y * 2 :=
      ⟨d1.num * 2 ^ k, by rw [hcancel, pow_succ]; ring⟩
    omega
  omega

theorem toQ_inj : Function.Injective toQ := by
  intro d1 d2 h
  have hne1 : ((2 : ℚ) ^ d1.exp) ≠ 0 := by positivity
  have hne2 : ((2 : ℚ) ^ d2.exp) ≠ 0 := by positivity
  rw [toQ, toQ, div_eq_div_iff hne1 hne2] at h
  have h3 : d1.num * 2 ^ d2.exp = d2.num * 2 ^ d1.exp := by exact_mod_cast h
  rcases Nat.lt_trichotomy d1.exp d2.exp with hlt | heq | hgt
  · exact absurd (aux_exp_not_lt h3 hlt) (by simp)
  · have hnum : d1.num = d2.num := by
      rw [heq] at h3
      exact mul_right_cancel₀ (by positivity) h3
    exact extD hnum heq
  · exact absurd (aux_exp_not_lt h3.symm hgt) (by simp)

theorem toQ_zero : toQ 0 = 0 := by
  show ((0 : ℤ) : ℚ) / 2 ^ (0 : ℕ) = 0
  norm_num

theorem toQ_one : toQ 1 = 1 := by
  show ((1 : ℤ) : ℚ) / 2 ^ (0 : ℕ) = 1
  norm_num

theorem toQ_neg (x : Dyad) : toQ (-x) = -toQ x := by
  show ((-x.num : ℤ) : ℚ) / 2 ^ x.exp = -(((x.num : ℤ) : ℚ) / 2 ^ x.exp)
  push_cast
  ring

theorem toQ_add (x y : Dyad) : toQ (x + y) = toQ x + toQ y := by
  show toQ (mk' _ _) = _
  rw [toQ_mk', toQ, toQ]
  have h1 : (2 : ℚ) ^ (max x.exp y.exp - x.exp) * 2 ^ x.exp = 2 ^ max x.exp y.exp := by
    rw [← pow_add]
    congr 1
    omega
  have h2 : (2 : ℚ) ^ (max x.exp y.exp - y.exp) * 2 ^ y.exp = 2 ^ max x.exp y.exp := by
    rw [← pow_add]
    congr 1
    omega
  push_cast
  rw [div_add_div _ _ (by positivity) (by positivity),
    div_eq_div_iff (by positivity) (by positivity)]
  linear_combination ((x.num : ℚ) * 2 ^ y.exp) * h1 + ((y.num : ℚ) * 2 ^ x.exp) * h2

theorem toQ_mul (x y : Dyad) : toQ (x * y) = toQ x * toQ y := by
  show toQ (mk' _ _) = _
  rw [toQ_mk', toQ, toQ]
  push_cast
  rw [pow_add, div_mul_div_comm]

instance commRing : CommRing Dyad where
  add_assoc := by
    intros
    apply toQ_inj
    simp only [toQ_add]
    ring
  zero_add := by
    intros
    apply toQ_inj
    simp only [toQ_add, toQ_zero]
    ring
  add_zero := by
    intros
    apply toQ_inj
    simp only [toQ_add, toQ_zero]
    ring
  add_comm := by
    intros
    apply toQ_inj
    simp only [toQ_add]
    ring
  mul_assoc := by
    intros
    apply toQ_inj
    simp only [toQ_mul]
    ring
  one_mul := by
    intros
    apply toQ_inj
    simp only [toQ_mul, toQ_one]
    ring
  mul_one := by
    intros
    apply toQ_inj
    simp only [toQ_mul, toQ_one]
    ring
  left_distrib := by
    intros
    apply toQ_inj
    simp only [toQ_add, toQ_mul]
    ring
  right_distrib := by
    intros
    apply toQ_inj
    simp only [toQ_add, toQ_mul]
    ring
  zero_mul := by
    intros
    apply toQ_inj
    simp only [toQ_mul, toQ_zero]
    ring
  mul_zero := by
    intros
    apply toQ_inj
    simp only [toQ_mul, toQ_zero]
    ring
  mul_comm := by
    intros
    apply toQ_inj
    simp only [toQ_mul]
    ring
  neg_add_cancel := by
    intros
    apply toQ_inj
    simp only [toQ_add, toQ_neg, toQ_zero]
    ring
  nsmul := nsmulRec
  zsmul := zsmulRec

end Dyad

/-- Modelled from the spec: complex coefficients of symbolic operators
(§3), as pairs of exact dyadic scalars. -/
structure Cplx where
  re : Dyad
  im : Dyad
deriving DecidableEq

namespace Cplx

@[ext] theorem extC {x y : Cplx} (h1 : x.re = y.re) (h2 : x.im = y.im) : x = y := by
  cases x; cases y; simp_all

instance : Zero Cplx := ⟨⟨0, 0⟩⟩
instance : One Cplx := ⟨⟨1, 0⟩⟩
instance : Add Cplx := ⟨fun x y => ⟨x.re + y.re, x.im + y.im⟩⟩
instance : Mul Cplx := ⟨fun x y => ⟨x.re * y.re - x.im * y.im, x.re * y.im + x.im * y.re⟩⟩
instance : Neg Cplx := ⟨fun x => ⟨-x.re, -x.im⟩⟩

@[simp] theorem zero_re : (0 : Cplx).re = 0 := rfl
@[simp] theorem zero_im : (0 : Cplx).im = 0 := rfl
@[simp] theorem one_re : (1 : Cplx).re = 1 := rfl
@[simp] theorem one_im : (1 : Cplx).im = 0 := rfl
@[simp] theorem add_re (x y : Cplx) : (x + y).re = x.re + y.re := rfl
@[simp] theorem add_im (x y : Cplx) : (x + y).im = x.im + y.im := rfl
@[simp] theorem mul_re (x y : Cplx) : (x * y).re = x.re * y.re - x.im * y.im := rfl
@[simp] theorem mul_im (x y : Cplx) : (x * y).im = x.re * y.im + x.im * y.re := rfl
@[simp] theorem neg_re (x : Cplx) : (-x).re = -x.re := rfl
@[simp] theorem neg_im (x : Cplx) : (-x).im = -x.im := rfl

instance commRing : CommRing Cplx where
  add_assoc := by intros; apply extC <;> simp <;> ring
  zero_add := by intros; apply extC <;> simp
  add_zero := by intros; apply extC <;> simp
  add_comm := by intros; apply extC <;> simp <;> ring
  mul_assoc := by intros; apply extC <;> simp <;> ring
  one_mul := by intros; apply extC <;> simp
  mul_one := by intros; apply extC <;> simp
  left_distrib := by intros; apply extC <;> simp <;> ring
  right_distrib := by intros; apply extC <;> simp <;> ring
  zero_mul := by intros; apply extC <;> simp
  mul_zero := by intros; apply extC <;> simp
  mul_comm := by intros; apply extC <;> simp <;> ring
  neg_add_cancel := by intros; apply extC <;> simp
  nsmul := nsmulRec
  zsmul := zsmulRec

/-- The imaginary unit. -/
def iu : Cplx := ⟨0, 1⟩

/-- One half, as a complex coefficient. -/
def half : Cplx := ⟨⟨1, 1, Or.inl rfl⟩, 0⟩

/-- `i/2`, as a complex coefficient. -/
def halfI : Cplx := ⟨0, ⟨1, 1, Or.inl rfl⟩⟩

/-- Modelled from the spec: complex conjugation of a coefficient (§4.2). -/
def conj (x : Cplx) : Cplx := ⟨x.re, -x.im⟩

end Cplx

/-- Modelled from the spec: a numerical tolerance, given as an exact
fraction `num / den` so that the comparison against the spec's `1e-12`
default stays exact (§4.2, §5). -/
structure Tol where
  num : ℕ
  den : ℕ
deriving DecidableEq

namespace Cplx

/-- Modelled from the spec: a coefficient whose magnitude is at most the
tolerance is treated as zero when pruning (§4.2).  The comparison
`re² + im² ≤ tol²` is cross-multiplied into exact integer arithmetic. -/
def small (tol : Tol) (c : Cplx) : Bool :=
  (c.re.num ^ 2 * 4 ^ c.im.exp + c.im.num ^ 2 * 4 ^ c.re.exp) * (tol.den : ℤ) ^ 2
    ≤ (tol.num : ℤ) ^ 2 * 4 ^ (c.re.exp + c.im.exp)

@[simp] theorem small_zero (tol : Tol) : small tol 0 = true := by
  simp only [small, decide_eq_true_eq]
  show ((0 : ℤ) ^ 2 * 4 ^ (0 : ℕ) + 0 ^ 2 * 4 ^ (0 : ℕ)) * (tol.den : ℤ) ^ 2
    ≤ (tol.num : ℤ) ^ 2 * 4 ^ ((0 : ℕ) + (0 : ℕ))
  have h0 : ((0 : ℤ) ^ 2 * 4 ^ (0 : ℕ) + 0 ^ 2 * 4 ^ (0 : ℕ)) * (tol.den : ℤ) ^ 2 = 0 := by
    norm_num
  rw [h0]
  positivity

end Cplx

/-- Modelled from the spec: the fixed default numerical tolerance for
zero-pruning (§4.2, §5), `1e-12`. -/
def tolerance : Tol := ⟨1, 10 ^ 12⟩

/-- The zero tolerance: pruning removes exactly-zero coefficients only. -/
def exactTol : Tol := ⟨0, 1⟩

theorem Cplx.small_exact_iff {c : Cplx} : Cplx.small exactTol c = true ↔ c = 0 := by
  constructor
  · intro h
    simp only [small, exactTol, decide_eq_true_eq] at h
    norm_num at h
    have h4i : (0 : ℤ) < 4 ^ c.re.exp := by positivity
    have h4j : (0 : ℤ) < 4 ^ c.im.exp := by positivity
    have hre : c.re.num = 0 := by nlinarith [sq_nonneg c.re.num, sq_nonneg c.im.num]
    have him : c.im.num = 0 := by nlinarith [sq_nonneg c.re.num, sq_nonneg c.im.num]
    exact Cplx.extC (Dyad.eq_zero_of_num_eq_zero hre) (Dyad.eq_zero_of_num_eq_zero him)
  · rintro rfl
    simp



/-! ### Lexicographic order on encoded term keys -/

/-- Strict lexicographic order on lists of naturals, used to keep
term-to-coefficient mappings in a canonical sorted form. -/
def lexLt : List ℕ → List ℕ → Bool
  | [], [] => false
  | [], _ :: _ => true
  | _ :: _, [] => false
  | a :: as, b :: bs => if a < b then true else if b < a then false else lexLt as bs

theorem lexLt_irrefl : ∀ l : List ℕ, lexLt l l = false := by
  intro l
  induction l with
  | nil => rfl
  | cons a as ih => simp [lexLt, ih]

theorem lexLt_trans : ∀ {a b c : List ℕ},
    lexLt a b = true → lexLt b c = true → lexLt a c = true := by
  intro a
  induction a with
  | nil =>
    intro b c hab hbc
    cases b with
    | nil => simp [lexLt] at hab
    | cons y ys =>
      cases c with
      | nil => simp [lexLt] at hbc
      | cons z zs => simp [lexLt]
  | cons x xs ih =>
    intro b c hab hbc
    cases b with
    | nil => simp [lexLt] at hab
    | cons y ys =>
      cases c with
      | nil => simp [lexLt] at hbc
      | cons z zs =>
        simp only [lexLt] at hab hbc ⊢
        by_cases hxy : x < y
        · by_cases hyz : y < z
          · simp [Nat.lt_trans hxy hyz]
          · by_cases hzy : z < y
            · simp [hyz, hzy] at hbc
            · have : y = z := by omega
              subst this
              simp [hxy]
        · by_cases hyx : y < x
          · simp [hxy, hyx] at hab
          · have hxyeq : x = y := by omega
            subst hxyeq
            simp only [hxy, if_neg, Nat.lt_irrefl, if_false] at hab
            by_cases hyz : x < z
            · simp [hyz]
            · by_cases hzy : z < x
              · simp [hyz, hzy] at hbc
              · have : x = z := by omega
                subst this
                simp only [Nat.lt_irrefl, if_false] at hbc ⊢
                exact ih hab hbc

theorem lexLt_conn : ∀ {a b : List ℕ},
    lexLt a b = false → lexLt b a = false → a = b := by
  intro a
  induction a with
  | nil =>
    intro b hab _
    cases b with
    | nil => rfl
    | cons y ys => simp [lexLt] at hab
  | cons x xs ih =>
    intro b hab hba
    cases b with
    | nil => simp [lexLt] at hba
    | cons y ys =>
      simp only [lexLt] at hab hba
      by_cases hxy : x < y
      · simp [hxy] at hab
      · by_cases hyx : y < x
        · simp [hxy, hyx] at hba
        · have hxyeq : x = y := by omega
          subst hxyeq
          simp only [Nat.lt_irrefl, if_false] at hab hba
          rw [ih hab hba]

theorem lexLt_asymm {a b : List ℕ} (h : lexLt a b = true) : lexLt b a = false := by
  by_contra hc
  have h2 : lexLt b a = true := by
    cases hba : lexLt b a with
    | false => exact absurd hba hc
    | true => rfl
  have := lexLt_trans h h2
  rw [lexLt_irrefl] at this
  exact Bool.false_ne_true this

/-! ### Canonical term-to-coefficient mappings

Modelled from the spec (§3, §4.2): a `SymbolicOperator` is a mapping from
terms to complex coefficients with unique keys and no below-tolerance
entries.  The mapping is realised as an association list kept sorted by an
injective encoding of the keys into `List ℕ`. -/

/-- Modelled from the spec: key types of symbolic-operator mappings, with
an injective encoding used to keep the mapping canonically sorted. -/
class KeyC (K : Type) where
  enc : K → List ℕ
  enc_inj : Function.Injective enc

/-- Strict order on mapping keys through their encodings. -/
def kLt [KeyC K] (a b : K) : Bool := lexLt (KeyC.enc a) (KeyC.enc b)

section KeyOrder

variable {K : Type} [KeyC K]

theorem kLt_irrefl (a : K) : kLt a a = false := lexLt_irrefl _

theorem kLt_trans {a b c : K} (h1 : kLt a b = true) (h2 : kLt b c = true) :
    kLt a c = true := lexLt_trans h1 h2

theorem kLt_conn {a b : K} (h1 : kLt a b = false) (h2 : kLt b a = false) : a = b :=
  KeyC.enc_inj (lexLt_conn h1 h2)

theorem kLt_ne {a b : K} (h : kLt a b = true) : a ≠ b := by
  rintro rfl
  rw [kLt_irrefl] at h
  exact Bool.false_ne_true h

theorem bool_eq_false {b : Bool} (h : ¬b = true) : b = false := by
  cases b with
  | false => rfl
  | true => exact absurd rfl h

theorem kLt_of_ne_of_not_lt {a b : K} (hne : a ≠ b) (h : kLt a b = false) :
    kLt b a = true := by
  cases hba : kLt b a with
  | true => rfl
  | false => exact absurd (kLt_conn h hba) hne

end KeyOrder

section MapOps

variable {K : Type} [DecidableEq K] [KeyC K]

/-- Modelled from the spec: the coefficient that the (possibly not yet
canonicalized) list of weighted terms assigns to the term `k` — the sum of
all entries carrying that key (§3, §4.2). -/
def sumCoeff {K2 : Type} [DecidableEq K2] (l : List (K2 × Cplx)) (k : K2) : Cplx :=
  (l.map fun e => if e.1 = k then e.2 else 0).sum

@[simp] theorem sumCoeff_nil {K2 : Type} [DecidableEq K2] (k : K2) :
    sumCoeff ([] : List (K2 × Cplx)) k = 0 := rfl

theorem sumCoeff_cons {K2 : Type} [DecidableEq K2] (e : K2 × Cplx) (l : List (K2 × Cplx))
    (k : K2) : sumCoeff (e :: l) k = (if e.1 = k then e.2 else 0) + sumCoeff l k := by
  simp [sumCoeff]

theorem sumCoeff_append {K2 : Type} [DecidableEq K2] (l1 l2 : List (K2 × Cplx)) (k : K2) :
    sumCoeff (l1 ++ l2) k = sumCoeff l1 k + sumCoeff l2 k := by
  simp [sumCoeff]

theorem sumCoeff_eq_zero_of_forall_ne {K2 : Type} [DecidableEq K2]
    {l : List (K2 × Cplx)} {k : K2} (h : ∀ e ∈ l, e.1 ≠ k) : sumCoeff l k = 0 := by
  induction l with
  | nil => rfl
  | cons e l ih =>
    rw [sumCoeff_cons, if_neg (h e (List.mem_cons_self e l)), zero_add]
    exact ih fun x hx => h x (List.mem_cons_of_mem e hx)

/-- Insert an entry into a sorted association list, adding the coefficient
if the key is already present (§4.2 `add`). -/
def insertAdd (e : K × Cplx) : List (K × Cplx) → List (K × Cplx)
  | [] => [e]
  | f :: m =>
    if e.1 = f.1 then (f.1, e.2 + f.2) :: m
    else if kLt e.1 f.1 then e :: f :: m
    else f :: insertAdd e m

/-- Fold a raw weighted-term list into a sorted mapping with unique keys. -/
def collectMap (l : List (K × Cplx)) : List (K × Cplx) := l.foldr insertAdd []

/-- Modelled from the spec: prune entries whose coefficient has magnitude
at most `tol` (§4.2). -/
def pruneMap (tol : Tol) (m : List (K × Cplx)) : List (K × Cplx) :=
  m.filter fun e => !(Cplx.small tol e.2)

/-- Canonicalize a raw weighted-term list: sort, merge equal keys, prune
below-tolerance coefficients. -/
def normalizeMap (tol : Tol) (l : List (K × Cplx)) : List (K × Cplx) :=
  pruneMap tol (collectMap l)

/-- A mapping is sorted when its keys are pairwise strictly increasing. -/
def SortedMap (m : List (K × Cplx)) : Prop :=
  m.Pairwise fun a b => kLt a.1 b.1 = true

/-- Modelled from the spec: the invariant that no entry of a mapping has a
below-tolerance coefficient (§3). -/
def WfMap (tol : Tol) (m : List (K × Cplx)) : Prop :=
  ∀ e ∈ m, Cplx.small tol e.2 = false

theorem sumCoeff_insertAdd (e : K × Cplx) (m : List (K × Cplx)) (k : K) :
    sumCoeff (insertAdd e m) k = (if e.1 = k then e.2 else 0) + sumCoeff m k := by
  induction m with
  | nil => simp [insertAdd, sumCoeff_cons]
  | cons f m ih =>
    by_cases h1 : e.1 = f.1
    · rw [insertAdd, if_pos h1, sumCoeff_cons, sumCoeff_cons]
      by_cases h2 : f.1 = k
      · rw [if_pos h2, if_pos (h1.trans h2), if_pos h2]; ring
      · rw [if_neg h2, if_neg fun hh => h2 (h1.symm.trans hh), if_neg h2]; ring
    · rw [insertAdd, if_neg h1]
      by_cases h2 : kLt e.1 f.1
      · rw [if_pos h2, sumCoeff_cons, sumCoeff_cons]
      · rw [if_neg h2, sumCoeff_cons, sumCoeff_cons, ih]; ring

theorem mem_insertAdd_keys {e y : K × Cplx} {m : List (K × Cplx)}
    (h : y ∈ insertAdd e m) : y.1 = e.1 ∨ ∃ z ∈ m, y.1 = z.1 := by
  induction m with
  | nil =>
    simp only [insertAdd, List.mem_singleton] at h
    exact Or.inl (by rw [h])
  | cons f m ih =>
    by_cases h1 : e.1 = f.1
    · rw [insertAdd, if_pos h1] at h
      rcases List.mem_cons.mp h with h2 | h2
      · exact Or.inl (by rw [h2]; exact h1.symm)
      · exact Or.inr ⟨y, List.mem_cons_of_mem f h2, rfl⟩
    · rw [insertAdd, if_neg h1] at h
      by_cases h2 : kLt e.1 f.1
      · rw [if_pos h2] at h
        rcases List.mem_cons.mp h with h3 | h3
        · exact Or.inl (by rw [h3])
        · exact Or.inr ⟨y, h3, rfl⟩
      · rw [if_neg h2] at h
        rcases List.mem_cons.mp h with h3 | h3
        · exact Or.inr ⟨f, List.mem_cons_self f m, by rw [h3]⟩
        · rcases ih h3 with h4 | ⟨z, hz, h4⟩
          · exact Or.inl h4
          · exact Or.inr ⟨z, List.mem_cons_of_mem f hz, h4⟩

theorem sorted_insertAdd {e : K × Cplx} {m : List (K × Cplx)} (h : SortedMap m) :
    SortedMap (insertAdd e m) := by
  induction m with
  | nil => simp [insertAdd, SortedMap]
  | cons f m ih =>
    obtain ⟨hf, hm⟩ := List.pairwise_cons.mp h
    by_cases h1 : e.1 = f.1
    · rw [insertAdd, if_pos h1]
      exact List.pairwise_cons.mpr ⟨hf, hm⟩
    · rw [insertAdd, if_neg h1]
      by_cases h2 : kLt e.1 f.1
      · rw [if_pos h2]
        refine List.pairwise_cons.mpr ⟨?_, List.pairwise_cons.mpr ⟨hf, hm⟩⟩
        intro y hy
        rcases List.mem_cons.mp hy with h3 | h3
        · rw [h3]; exact h2
        · exact kLt_trans h2 (hf y h3)
      · rw [if_neg h2]
        refine List.pairwise_cons.mpr ⟨?_, ih hm⟩
        intro y hy
        rcases mem_insertAdd_keys hy with h3 | ⟨z, hz, h3⟩
        · rw [h3]
          exact kLt_of_ne_of_not_lt h1 (bool_eq_false h2)
        · rw [h3]; exact hf z hz

theorem sumCoeff_collectMap (l : List (K × Cplx)) (k : K) :
    sumCoeff (collectMap l) k = sumCoeff l k := by
  induction l with
  | nil => rfl
  | cons e l ih =>
    rw [collectMap, List.foldr_cons, sumCoeff_insertAdd, sumCoeff_cons]
    rw [collectMap] at ih
    rw [ih]

theorem sorted_collectMap (l : List (K × Cplx)) : SortedMap (collectMap l) := by
  induction l with
  | nil => simp [collectMap, SortedMap]
  | cons e l ih => exact sorted_insertAdd ih

theorem sorted_pruneMap {tol : Tol} {m : List (K × Cplx)} (h : SortedMap m) :
    SortedMap (pruneMap tol m) :=
  List.Pairwise.sublist (List.filter_sublist m) h

theorem wf_normalizeMap (tol : Tol) (l : List (K × Cplx)) :
    WfMap tol (normalizeMap tol l) := by
  intro e he
  have := List.mem_filter.mp he
  simpa using this.2

theorem sorted_normalizeMap (tol : Tol) (l : List (K × Cplx)) :
    SortedMap (normalizeMap tol l) :=
  sorted_pruneMap (sorted_collectMap l)

theorem sumCoeff_head_eq_zero_of_sorted {f : K × Cplx} {m : List (K × Cplx)}
    (h : ∀ y ∈ m, kLt f.1 y.1 = true) : sumCoeff m f.1 = 0 :=
  sumCoeff_eq_zero_of_forall_ne fun e he hh => kLt_ne (h e he) hh.symm

theorem sumCoeff_pruneMap {tol : Tol} {m : List (K × Cplx)} (h : SortedMap m) (k : K) :
    sumCoeff (pruneMap tol m) k =
      if Cplx.small tol (sumCoeff m k) = true then 0 else sumCoeff m k := by
  induction m with
  | nil => simp [pruneMap]
  | cons f m ih =>
    rw [SortedMap, List.pairwise_cons] at h
    obtain ⟨hf, hm⟩ := h
    have htail := ih hm
    by_cases hk : f.1 = k
    · subst hk
    -- the head is the only entry with this key
      have hz : sumCoeff m f.1 = 0 := sumCoeff_head_eq_zero_of_sorted hf
      rw [sumCoeff_cons, if_pos rfl, hz, add_zero]
      by_cases hs : Cplx.small tol f.2 = true
      · rw [pruneMap, List.filter_cons_of_neg (by simp [hs]), if_pos hs]
        rw [pruneMap] at htail
        rw [htail, hz, if_pos (by simp)]
      · rw [pruneMap, List.filter_cons_of_pos (by simp [hs]), if_neg hs]
        have : sumCoeff (pruneMap tol m) f.1 = 0 := by
          rw [htail, hz]
          simp
        rw [sumCoeff_cons, if_pos rfl]
        rw [pruneMap] at this
        rw [this, add_zero]
    · rw [sumCoeff_cons, if_neg hk, zero_add]
      by_cases hs : Cplx.small tol f.2 = true
      · rw [pruneMap, List.filter_cons_of_neg (by simp [hs])]
        rw [pruneMap] at htail
        rw [htail]
      · rw [pruneMap, List.filter_cons_of_pos (by simp [hs]), sumCoeff_cons,
          if_neg hk, zero_add]
        rw [pruneMap] at htail
        rw [htail]

theorem sumCoeff_of_mem_sorted {m : List (K × Cplx)} (h : SortedMap m)
    {e : K × Cplx} (he : e ∈ m) : sumCoeff m e.1 = e.2 := by
  induction m with
  | nil => cases he
  | cons f m ih =>
    rw [SortedMap, List.pairwise_cons] at h
    obtain ⟨hf, hm⟩ := h
    rcases List.mem_cons.mp he with h1 | h1
    · subst h1
      rw [sumCoeff_cons, if_pos rfl, sumCoeff_head_eq_zero_of_sorted hf, add_zero]
    · have hne : f.1 ≠ e.1 := kLt_ne (hf e h1)
      rw [sumCoeff_cons, if_neg hne, zero_add]
      exact ih hm h1

theorem eq_of_sorted_wf_sumCoeff {tol : Tol} {m1 m2 : List (K × Cplx)}
    (hs1 : SortedMap m1) (hs2 : SortedMap m2) (hw1 : WfMap tol m1) (hw2 : WfMap tol m2)
    (h : ∀ k, sumCoeff m1 k = sumCoeff m2 k) : m1 = m2 := by
  induction m1 generalizing m2 with
  | nil =>
    cases m2 with
    | nil => rfl
    | cons f m2 =>
      exfalso
      have h1 : sumCoeff (f :: m2) f.1 = f.2 :=
        sumCoeff_of_mem_sorted hs2 (List.mem_cons_self f m2)
      have h2 : (0 : Cplx) = f.2 := by rw [← h1, ← h f.1]; rfl
      have := hw2 f (List.mem_cons_self f m2)
      rw [← h2] at this
      simp at this
  | cons e m1 ih =>
    cases m2 with
    | nil =>
      exfalso
      have h1 : sumCoeff (e :: m1) e.1 = e.2 :=
        sumCoeff_of_mem_sorted hs1 (List.mem_cons_self e m1)
      have h2 : e.2 = 0 := by rw [← h1, h e.1]; rfl
      have := hw1 e (List.mem_cons_self e m1)
      rw [h2] at this
      simp at this
    | cons f m2 =>
      rw [SortedMap, List.pairwise_cons] at hs1 hs2
      obtain ⟨he1, hm1⟩ := hs1
      obtain ⟨hf2, hm2⟩ := hs2
      have hkeys : e.1 = f.1 := by
        by_contra hne
        cases hlt : kLt e.1 f.1 with
        | false =>
          have hgt : kLt f.1 e.1 = true := kLt_of_ne_of_not_lt hne hlt
          -- f.1 is absent from m1, so its coefficient on the left is 0
          have hz : sumCoeff (e :: m1) f.1 = 0 := by
            apply sumCoeff_eq_zero_of_forall_ne
            intro y hy
            rcases List.mem_cons.mp hy with h1 | h1
            · rw [h1]; exact fun hh => (kLt_ne hgt) hh.symm
            · exact fun hh => (kLt_ne (kLt_trans hgt (he1 y h1))) hh.symm
          have h1 : sumCoeff (f :: m2) f.1 = f.2 :=
            sumCoeff_of_mem_sorted (List.pairwise_cons.mpr ⟨hf2, hm2⟩)
              (List.mem_cons_self f m2)
          have h2 : f.2 = 0 := by rw [← h1, ← h f.1, hz]
          have := hw2 f (List.mem_cons_self f m2)
          rw [h2] at this
          simp at this
        | true =>
          -- e.1 is absent from m2, so its coefficient on the right is 0
          have hz : sumCoeff (f :: m2) e.1 = 0 := by
            apply sumCoeff_eq_zero_of_forall_ne
            intro y hy
            rcases List.mem_cons.mp hy with h1 | h1
            · rw [h1]; exact fun hh => (kLt_ne hlt) hh.symm
            · exact fun hh => (kLt_ne (kLt_trans hlt (hf2 y h1))) hh.symm
          have h1 : sumCoeff (e :: m1) e.1 = e.2 :=
            sumCoeff_of_mem_sorted (List.pairwise_cons.mpr ⟨he1, hm1⟩)
              (List.mem_cons_self e m1)
          have h2 : e.2 = 0 := by rw [← h1, h e.1, hz]
          have := hw1 e (List.mem_cons_self e m1)
          rw [h2] at this
          simp at this
      have hcoeff : e.2 = f.2 := by
        have h1 : sumCoeff (e :: m1) e.1 = e.2 :=
          sumCoeff_of_mem_sorted (List.pairwise_cons.mpr ⟨he1, hm1⟩)
            (List.mem_cons_self e m1)
        have h2 : sumCoeff (f :: m2) f.1 = f.2 :=
          sumCoeff_of_mem_sorted (List.pairwise_cons.mpr ⟨hf2, hm2⟩)
            (List.mem_cons_self f m2)
        rw [← h1, h e.1, hkeys, h2]
      have htails : ∀ k, sumCoeff m1 k = sumCoeff m2 k := by
        intro k
        by_cases hk : k = e.1
        · subst hk
          rw [sumCoeff_head_eq_zero_of_sorted he1]
          rw [hkeys, sumCoeff_head_eq_zero_of_sorted hf2]
        · have := h k
          rw [sumCoeff_cons, sumCoeff_cons, if_neg (fun hh => hk hh.symm),
            if_neg (fun hh => hk (hh.symm.trans hkeys.symm)), zero_add, zero_add] at this
          exact this
      have htail := ih hm1 hm2 (fun x hx => hw1 x (List.mem_cons_of_mem e hx))
        (fun x hx => hw2 x (List.mem_cons_of_mem f hx)) htails
      have : e = f := Prod.ext hkeys hcoeff
      rw [this, htail]

theorem sumCoeff_normalizeMap (tol : Tol) (l : List (K × Cplx)) (k : K) :
    sumCoeff (normalizeMap tol l) k =
      if Cplx.small tol (sumCoeff l k) = true then 0 else sumCoeff l k := by
  rw [normalizeMap, sumCoeff_pruneMap (sorted_collectMap l), sumCoeff_collectMap]

theorem normalizeMap_eq_of_sumCoeff_eq {tol : Tol} {l1 l2 : List (K × Cplx)}
    (h : ∀ k, sumCoeff l1 k = sumCoeff l2 k) :
    normalizeMap tol l1 = normalizeMap tol l2 := by
  apply eq_of_sorted_wf_sumCoeff (sorted_normalizeMap tol l1) (sorted_normalizeMap tol l2)
    (wf_normalizeMap tol l1) (wf_normalizeMap tol l2)
  intro k
  rw [sumCoeff_normalizeMap, sumCoeff_normalizeMap, h k]

theorem sumCoeff_normalizeMap_zero (l : List (K × Cplx)) (k : K) :
    sumCoeff (normalizeMap exactTol l) k = sumCoeff l k := by
  rw [sumCoeff_normalizeMap]
  by_cases h : Cplx.small exactTol (sumCoeff l k) = true
  · rw [if_pos h, Cplx.small_exact_iff.mp h]
  · rw [if_neg h]

theorem normalizeMap_eq_nil_of_zero {tol : Tol} {l : List (K × Cplx)}
    (h : ∀ k, sumCoeff l k = 0) : normalizeMap tol l = [] := by
  rw [normalizeMap, pruneMap]
  apply List.eq_nil_of_length_eq_zero
  rw [List.length_eq_zero]
  rw [List.filter_eq_nil_iff]
  intro e he
  have h1 : sumCoeff (collectMap l) e.1 = e.2 :=
    sumCoeff_of_mem_sorted (sorted_collectMap l) he
  rw [sumCoeff_collectMap, h e.1] at h1
  simp [← h1]

end MapOps

/-! ### Formal weighted sums of terms

Raw (not yet canonicalized) lists of weighted terms form a linear
structure: `fscale` scales all coefficients, `fbind` is the linear
extension of a term-level map, `mapK` transports terms along a key map
with a fixed sign. -/

section FormalSums

variable {K1 K2 K3 : Type}

/-- Scale every coefficient of a raw weighted-term list. -/
def fscale (c : Cplx) (l : List (K1 × Cplx)) : List (K1 × Cplx) :=
  l.map fun e => (e.1, c * e.2)

/-- Linear extension of a term-level operation to raw weighted-term lists. -/
def fbind (l : List (K1 × Cplx)) (h : K1 → List (K2 × Cplx)) : List (K2 × Cplx) :=
  l.flatMap fun e => fscale e.2 (h e.1)

/-- Transport a raw weighted-term list along a key map, scaling every
coefficient by a fixed factor. -/
def mapK (g : K1 → K2) (c : Cplx) (l : List (K1 × Cplx)) : List (K2 × Cplx) :=
  l.map fun e => (g e.1, c * e.2)

@[simp] theorem fscale_nil (c : Cplx) : fscale c ([] : List (K1 × Cplx)) = [] := rfl

theorem fscale_cons (c : Cplx) (e : K1 × Cplx) (l : List (K1 × Cplx)) :
    fscale c (e :: l) = (e.1, c * e.2) :: fscale c l := rfl

theorem fscale_fscale (c d : Cplx) (l : List (K1 × Cplx)) :
    fscale c (fscale d l) = fscale (c * d) l := by
  induction l with
  | nil => rfl
  | cons e l ih => rw [fscale_cons, fscale_cons, fscale_cons, ih, mul_assoc]

@[simp] theorem fbind_nil (h : K1 → List (K2 × Cplx)) :
    fbind ([] : List (K1 × Cplx)) h = [] := rfl

theorem fbind_cons (e : K1 × Cplx) (l : List (K1 × Cplx)) (h : K1 → List (K2 × Cplx)) :
    fbind (e :: l) h = fscale e.2 (h e.1) ++ fbind l h := rfl

theorem fbind_append (l1 l2 : List (K1 × Cplx)) (h : K1 → List (K2 × Cplx)) :
    fbind (l1 ++ l2) h = fbind l1 h ++ fbind l2 h := by
  induction l1 with
  | nil => rfl
  | cons e l ih => rw [List.cons_append, fbind_cons, fbind_cons, ih, List.append_assoc]

theorem fbind_fscale (c : Cplx) (l : List (K1 × Cplx)) (h : K1 → List (K2 × Cplx)) :
    fbind (fscale c l) h = fscale c (fbind l h) := by
  induction l with
  | nil => rfl
  | cons e l ih =>
    rw [fscale_cons, fbind_cons, fbind_cons, ih]
    show fscale (c * e.2) (h e.1) ++ _ = _
    rw [← fscale_fscale]
    induction fbind l h with
    | nil => simp [fscale]
    | cons f r ihr => simp [fscale]

theorem fbind_assoc (l : List (K1 × Cplx)) (g : K1 → List (K2 × Cplx))
    (h : K2 → List (K3 × Cplx)) :
    fbind (fbind l g) h = fbind l fun k => fbind (g k) h := by
  induction l with
  | nil => rfl
  | cons e l ih =>
    rw [fbind_cons, fbind_append, fbind_cons, ih, fbind_fscale]

theorem sumCoeff_fscale [DecidableEq K1] (c : Cplx) (l : List (K1 × Cplx)) (k : K1) :
    sumCoeff (fscale c l) k = c * sumCoeff l k := by
  induction l with
  | nil => simp
  | cons e l ih =>
    rw [fscale_cons, sumCoeff_cons, sumCoeff_cons, ih, mul_add, mul_ite, mul_zero]

theorem sumCoeff_fbind [DecidableEq K2] (l : List (K1 × Cplx))
    (h : K1 → List (K2 × Cplx)) (k : K2) :
    sumCoeff (fbind l h) k = (l.map fun e => e.2 * sumCoeff (h e.1) k).sum := by
  induction l with
  | nil => simp
  | cons e l ih =>
    rw [fbind_cons, sumCoeff_append, sumCoeff_fscale, ih, List.map_cons, List.sum_cons]

theorem sumCoeff_mapK_apply [DecidableEq K1] [DecidableEq K2] {g : K1 → K2}
    (hg : Function.Injective g) (c : Cplx) (l : List (K1 × Cplx)) (k : K1) :
    sumCoeff (mapK g c l) (g k) = c * sumCoeff l k := by
  induction l with
  | nil => simp [mapK]
  | cons e l ih =>
    rw [mapK, List.map_cons, sumCoeff_cons, sumCoeff_cons]
    show (if g e.1 = g k then c * e.2 else 0) + sumCoeff (mapK g c l) (g k) = _
    rw [ih, mul_add, mul_ite, mul_zero]
    by_cases hh : e.1 = k
    · rw [if_pos (by rw [hh]), if_pos hh]
    · rw [if_neg (fun hc => hh (hg hc)), if_neg hh]

theorem sumCoeff_mapK_of_not_range [DecidableEq K2] {g : K1 → K2} {k2 : K2}
    (hk : ∀ k, g k ≠ k2) (c : Cplx) (l : List (K1 × Cplx)) :
    sumCoeff (mapK g c l) k2 = 0 := by
  apply sumCoeff_eq_zero_of_forall_ne
  intro e he
  rw [mapK] at he
  obtain ⟨x, _, rfl⟩ := List.mem_map.mp he
  exact hk x.1

theorem lsum_map_add (l : List α) (f g : α → Cplx) :
    (l.map fun x => f x + g x).sum = (l.map f).sum + (l.map g).sum := by
  induction l with
  | nil => simp
  | cons e l ih =>
    rw [List.map_cons, List.sum_cons, ih, List.map_cons, List.map_cons,
      List.sum_cons, List.sum_cons]
    ring

theorem lsum_map_ite_eq {β : Type} [DecidableEq β] {l : List β} (hnd : l.Nodup)
    {a : β} (ha : a ∈ l) (f : β → Cplx) :
    (l.map fun k => if a = k then f k else 0).sum = f a := by
  induction l with
  | nil => cases ha
  | cons b l ih =>
    rw [List.map_cons, List.sum_cons]
    rcases List.mem_cons.mp ha with h1 | h1
    · subst h1
      rw [if_pos rfl]
      have : ∀ k ∈ l, (if a = k then f k else 0) = 0 := by
        intro k hk
        rw [if_neg]
        rintro rfl
        exact (List.nodup_cons.mp hnd).1 hk
      rw [List.sum_eq_zero (by
        intro x hx
        obtain ⟨y, hy, rfl⟩ := List.mem_map.mp hx
        exact this y hy), add_zero]
    · have hne : a ≠ b := by
        rintro rfl
        exact (List.nodup_cons.mp hnd).1 h1
      rw [if_neg hne, zero_add]
      exact ih (List.nodup_cons.mp hnd).2 h1

/-- The coefficient of a bound sum, grouped by the distinct keys of the
input list. -/
theorem sumCoeff_fbind_group [DecidableEq K1] [DecidableEq K2]
    (l : List (K1 × Cplx)) (h : K1 → List (K2 × Cplx)) (k2 : K2) :
    sumCoeff (fbind l h) k2 =
      ((l.map Prod.fst).dedup.map fun k => sumCoeff l k * sumCoeff (h k) k2).sum := by
  induction l with
  | nil => simp
  | cons e l ih =>
    rw [fbind_cons, sumCoeff_append, sumCoeff_fscale, ih, List.map_cons]
    by_cases hmem : e.1 ∈ l.map Prod.fst
    · rw [List.dedup_cons_of_mem hmem]
      have hexp : ((l.map Prod.fst).dedup.map fun k =>
          sumCoeff (e :: l) k * sumCoeff (h k) k2).sum =
          ((l.map Prod.fst).dedup.map fun k =>
            (if e.1 = k then e.2 * sumCoeff (h k) k2 else 0) +
              sumCoeff l k * sumCoeff (h k) k2).sum := by
        apply congrArg
        apply List.map_congr_left
        intro k hk
        rw [sumCoeff_cons]
        by_cases hek : e.1 = k
        · rw [if_pos hek, if_pos hek, add_mul]
        · rw [if_neg hek, if_neg hek, zero_add, zero_add]
      rw [hexp, lsum_map_add,
        lsum_map_ite_eq (List.nodup_dedup _) (List.mem_dedup.mpr hmem)]
    · rw [List.dedup_cons_of_not_mem hmem, List.map_cons, List.sum_cons]
      have hz : sumCoeff l e.1 = 0 := by
        apply sumCoeff_eq_zero_of_forall_ne
        intro x hx hc
        exact hmem (hc ▸ List.mem_map_of_mem Prod.fst hx)
      have hhead : sumCoeff (e :: l) e.1 = e.2 := by
        rw [sumCoeff_cons, if_pos rfl, hz, add_zero]
      have htail : ((l.map Prod.fst).dedup.map fun k =>
          sumCoeff (e :: l) k * sumCoeff (h k) k2).sum =
          ((l.map Prod.fst).dedup.map fun k =>
            sumCoeff l k * sumCoeff (h k) k2).sum := by
        apply congrArg
        apply List.map_congr_left
        intro k hk
        have hne : e.1 ≠ k := by
          rintro rfl
          exact hmem (List.mem_dedup.mp hk)
        rw [sumCoeff_cons, if_neg hne, zero_add]
      rw [hhead, htail]

/-- A raw list whose every coefficient sum vanishes stays that way under
linear extension. -/
theorem sumCoeff_fbind_of_zero [DecidableEq K1] [DecidableEq K2]
    {l : List (K1 × Cplx)} (hz : ∀ k, sumCoeff l k = 0)
    (h : K1 → List (K2 × Cplx)) (k2 : K2) : sumCoeff (fbind l h) k2 = 0 := by
  rw [sumCoeff_fbind_group]
  apply List.sum_eq_zero
  intro x hx
  obtain ⟨y, _, rfl⟩ := List.mem_map.mp hx
  rw [hz y, zero_mul]

end FormalSums

/-! ### Fermionic operators

Modelled from the spec (§3, §4.1, §4.3): a raw fermionic term is an
ordered sequence of `(site, action)` pairs with `action = true` for
creation (`1` in the source material) and `false` for annihilation (`0`);
a `FermionOp` is a canonical mapping from raw terms to coefficients. -/

/-- Encoding of raw fermionic terms used for the canonical key order. -/
def encFermion (l : List (ℕ × Bool)) : List ℕ :=
  l.flatMap fun e => [e.1, cond e.2 1 0]

theorem encFermion_inj : Function.Injective encFermion := by
  intro l1
  induction l1 with
  | nil =>
    intro l2 h
    cases l2 with
    | nil => rfl
    | cons e l2 => simp [encFermion] at h
  | cons e1 l1 ih =>
    intro l2 h
    cases l2 with
    | nil => simp [encFermion] at h
    | cons e2 l2 =>
      simp only [encFermion, List.flatMap_cons, List.cons_append, List.nil_append,
        List.cons.injEq] at h
      obtain ⟨h1, h2, h3⟩ := h
      have hb : e1.2 = e2.2 := by
        cases hb1 : e1.2 <;> cases hb2 : e2.2 <;> simp [hb1, hb2] at h2 ⊢
      have := ih h3
      rw [Prod.ext h1 hb, this]

instance instKeyCFermion : KeyC (List (ℕ × Bool)) := ⟨encFermion, encFermion_inj⟩

/-- A normal-ordered fermionic monomial: creation sites followed by
annihilation sites, each in strictly descending order (§4.3). -/
structure NOTerm where
  cre : List ℕ
  ann : List ℕ
deriving DecidableEq, Repr

/-- Insert a site into a strictly descending site list, flipping the sign
for every anticommuting transposition; `none` when the site is already
present (two equal adjacent ladder operators annihilate, §4.3). -/
def insertDesc (p : ℕ) : List ℕ → Option (List ℕ × Cplx)
  | [] => some ([p], 1)
  | q :: l =>
    if p = q then none
    else if q < p then some (p :: q :: l, 1)
    else
      match insertDesc p l with
      | none => none
      | some (l2, s) => some (q :: l2, -s)

/-- Left-multiply a normal-ordered monomial by a creation operator. -/
def insertCre (p : ℕ) (t : NOTerm) : List (NOTerm × Cplx) :=
  match insertDesc p t.cre with
  | none => []
  | some (l, s) => [(⟨l, t.ann⟩, s)]

/-- Left-multiply the normal-ordered monomial with creation part `cs` and
annihilation part `a` by the annihilation operator on site `p`,
producing the normal-ordered expansion (worklist rule of §4.3): moving
`a_p` across `a_q†` flips the sign for `p ≠ q` and splits into
`rest − a_p† (a_p rest)` for `p = q`. -/
def insertAnnGo (p : ℕ) (a : List ℕ) : List ℕ → List (NOTerm × Cplx)
  | [] =>
    match insertDesc p a with
    | none => []
    | some (l, s) => [(⟨[], l⟩, s)]
  | q :: cs =>
    if p = q then
      (⟨cs, a⟩, 1) :: mapK (fun t => ⟨q :: t.cre, t.ann⟩) (-1) (insertAnnGo p a cs)
    else
      mapK (fun t => ⟨q :: t.cre, t.ann⟩) (-1) (insertAnnGo p a cs)

/-- Left-multiply a normal-ordered monomial by one ladder factor. -/
def insertFacNF (f : ℕ × Bool) (t : NOTerm) : List (NOTerm × Cplx) :=
  if f.2 then insertCre f.1 t else insertAnnGo f.1 t.ann t.cre

/-- Normal-order a raw factor sequence into a weighted sum of
normal-ordered monomials, multiplying factors in from the right. -/
def normalOrderNF (seq : List (ℕ × Bool)) : List (NOTerm × Cplx) :=
  seq.foldr (fun f acc => fbind acc (insertFacNF f)) [(⟨[], []⟩, 1)]

/-- The raw factor sequence of a normal-ordered monomial: creations
(action `true`) then annihilations (action `false`). -/
def NOTerm.toSeq (t : NOTerm) : List (ℕ × Bool) :=
  (t.cre.map fun p => (p, true)) ++ t.ann.map fun p => (p, false)

/-- Modelled from the spec §4.3: the normal-ordered expansion of a raw
factor sequence, as a raw weighted-term list over raw term keys. -/
def normalOrderSeq (seq : List (ℕ × Bool)) : List (List (ℕ × Bool) × Cplx) :=
  mapK NOTerm.toSeq 1 (normalOrderNF seq)

/-- A fermionic operator: canonical mapping from raw terms to
coefficients. -/
abbrev FermionOp := List (List (ℕ × Bool) × Cplx)

/-- Modelled from the spec: literal construction of a fermionic operator
from a single raw term and a coefficient (§3 lifecycle). -/
def FermionOperator (t : List (ℕ × Bool)) (c : Cplx) : FermionOp :=
  normalizeMap tolerance [(t, c)]

/-- Modelled from the spec §4.2 `add`: union of both mappings, summing the
coefficients of equal terms, then pruning below-tolerance entries. -/
def addOp {K : Type} [DecidableEq K] [KeyC K] (tol : Tol) (A B : List (K × Cplx)) :
    List (K × Cplx) :=
  normalizeMap tol (A ++ B)

/-- Modelled from the spec §4.2 `scalar_multiply`: multiply every
coefficient by `c` (an empty mapping results when `c = 0`). -/
def scalar_multiply {K : Type} [DecidableEq K] [KeyC K] (tol : Tol) (c : Cplx)
    (A : List (K × Cplx)) : List (K × Cplx) :=
  normalizeMap tol (fscale c A)

/-- Modelled from the spec §4.2 `is_close_to`: structural equality after
pruning both sides at tolerance `tol`. -/
def is_close_to {K : Type} [DecidableEq K] [KeyC K] (tol : Tol)
    (A B : List (K × Cplx)) : Prop :=
  pruneMap tol A = pruneMap tol B

/-- Modelled from the spec §4.2 `multiply` with the fermionic
simplification rule §4.3: concatenate the factor sequences of every pair
of terms, normal-order the concatenation, and accumulate. -/
def multiplyF (tol : Tol) (A B : FermionOp) : FermionOp :=
  normalizeMap tol (fbind A fun t1 => fbind B fun t2 => normalOrderSeq (t1 ++ t2))

/-- Modelled from the spec §4.2 `hermitian_conjugate` for fermionic
operators: reverse each sequence, flip creation and annihilation, and
conjugate each coefficient. -/
def hermitian_conjugateF (tol : Tol) (A : FermionOp) : FermionOp :=
  normalizeMap tol (A.map fun e => (e.1.reverse.map fun f => (f.1, !f.2), Cplx.conj e.2))

/-! ### Repeated ladder factors annihilate

The spec (§4.3) demands `a_p a_p = 0` and `a_p† a_p† = 0`: inserting the
same ladder factor twice into a normal-ordered expansion contributes
nothing. -/

theorem insertDesc_mem_structure {p : ℕ} :
    ∀ {l l2 : List ℕ} {s : Cplx}, insertDesc p l = some (l2, s) →
      ∃ pre suf, l2 = pre ++ p :: suf ∧ ∀ x ∈ pre, p < x := by
  intro l
  induction l with
  | nil =>
    intro l2 s h
    simp only [insertDesc, Option.some.injEq, Prod.mk.injEq] at h
    exact ⟨[], [], by simp [← h.1], by simp⟩
  | cons q l ih =>
    intro l2 s h
    rw [insertDesc] at h
    by_cases h1 : p = q
    · rw [if_pos h1] at h; cases h
    · rw [if_neg h1] at h
      by_cases h2 : q < p
      · rw [if_pos h2] at h
        simp only [Option.some.injEq, Prod.mk.injEq] at h
        exact ⟨[], q :: l, by simp [← h.1], by simp⟩
      · rw [if_neg h2] at h
        cases h3 : insertDesc p l with
        | none => rw [h3] at h; cases h
        | some r =>
          rw [h3] at h
          simp only [Option.some.injEq, Prod.mk.injEq] at h
          obtain ⟨pre, suf, hpre, hlt⟩ := ih (by rw [h3])
          refine ⟨q :: pre, suf, ?_, ?_⟩
          · rw [← h.1, hpre, List.cons_append]
          · intro x hx
            rcases List.mem_cons.mp hx with h4 | h4
            · subst h4; omega
            · exact hlt x h4

theorem insertDesc_none_of_structure {p : ℕ} :
    ∀ {pre suf : List ℕ}, (∀ x ∈ pre, p < x) →
      insertDesc p (pre ++ p :: suf) = none := by
  intro pre
  induction pre with
  | nil =>
    intro suf _
    rw [List.nil_append, insertDesc, if_pos rfl]
  | cons x pre ih =>
    intro suf hlt
    have hx : p < x := hlt x (List.mem_cons_self x pre)
    rw [List.cons_append, insertDesc, if_neg (by omega), if_neg (by omega),
      ih fun y hy => hlt y (List.mem_cons_of_mem x hy)]

theorem insertDesc_twice {p : ℕ} {l l2 : List ℕ} {s : Cplx}
    (h : insertDesc p l = some (l2, s)) : insertDesc p l2 = none := by
  obtain ⟨pre, suf, hpre, hlt⟩ := insertDesc_mem_structure h
  rw [hpre]
  exact insertDesc_none_of_structure hlt

theorem insertCre_twice (p : ℕ) (t : NOTerm) :
    fbind (insertCre p t) (insertCre p) = [] := by
  cases h : insertDesc p t.cre with
  | none => rw [insertCre, h, fbind_nil]
  | some r =>
    rw [insertCre, h, fbind_cons, fbind_nil, List.append_nil]
    show fscale r.2 (insertCre p ⟨r.1, t.ann⟩) = []
    rw [insertCre]
    have : insertDesc p r.1 = none := insertDesc_twice (by rw [h])
    rw [this, fscale_nil]

theorem lsum_map_mul_left {α : Type} (c : Cplx) (l : List α) (f : α → Cplx) :
    (l.map fun x => c * f x).sum = c * (l.map f).sum := by
  induction l with
  | nil => simp
  | cons e l ih =>
    rw [List.map_cons, List.sum_cons, ih, List.map_cons, List.sum_cons]
    ring

theorem sumCoeff_eq_sum_map_ind {K1 : Type} [DecidableEq K1]
    (l : List (K1 × Cplx)) (k : K1) :
    sumCoeff l k = (l.map fun u => u.2 * if u.1 = k then 1 else 0).sum := by
  rw [sumCoeff]
  apply congrArg
  apply List.map_congr_left
  intro u _
  by_cases h : u.1 = k
  · rw [if_pos h, if_pos h, mul_one]
  · rw [if_neg h, if_neg h, mul_zero]

theorem fscale_append {K1 : Type} (c : Cplx) (l1 l2 : List (K1 × Cplx)) :
    fscale c (l1 ++ l2) = fscale c l1 ++ fscale c l2 := by
  simp [fscale]

theorem fbind_mapK {K1 K2 K3 : Type} (g : K1 → K2) (c : Cplx)
    (X : List (K1 × Cplx)) (h : K2 → List (K3 × Cplx)) :
    fbind (mapK g c X) h = fscale c (fbind X fun u => h (g u)) := by
  induction X with
  | nil => rfl
  | cons e X ih =>
    show fscale (c * e.2) (h (g e.1)) ++ fbind (mapK g c X) h = _
    rw [fbind_cons, fscale_append, ih, fscale_fscale]

theorem sumCoeff_fbind_add {K1 K2 : Type} [DecidableEq K2] (X : List (K1 × Cplx))
    (A B : K1 → List (K2 × Cplx)) (k : K2) :
    sumCoeff (fbind X fun u => A u ++ B u) k =
      sumCoeff (fbind X A) k + sumCoeff (fbind X B) k := by
  rw [sumCoeff_fbind, sumCoeff_fbind, sumCoeff_fbind, ← lsum_map_add]
  apply congrArg
  apply List.map_congr_left
  intro u _
  rw [sumCoeff_append]
  ring

theorem sumCoeff_fbind_pure {K1 : Type} [DecidableEq K1] (X : List (K1 × Cplx))
    (k : K1) : sumCoeff (fbind X fun u => [(u, (1 : Cplx))]) k = sumCoeff X k := by
  rw [sumCoeff_fbind, sumCoeff_eq_sum_map_ind]
  apply congrArg
  apply List.map_congr_left
  intro u _
  rw [sumCoeff_cons, sumCoeff_nil, add_zero]

theorem sumCoeff_fbind_mapK_apply {K1 K2 K3 : Type} [DecidableEq K2] [DecidableEq K3]
    {g : K2 → K3} (hg : Function.Injective g) (c : Cplx) (X : List (K1 × Cplx))
    (h : K1 → List (K2 × Cplx)) (k0 : K2) :
    sumCoeff (fbind X fun u => mapK g c (h u)) (g k0) =
      c * sumCoeff (fbind X h) k0 := by
  rw [sumCoeff_fbind, sumCoeff_fbind, ← lsum_map_mul_left]
  apply congrArg
  apply List.map_congr_left
  intro u _
  rw [sumCoeff_mapK_apply hg]
  ring

theorem sumCoeff_fbind_mapK_of_not_range {K1 K2 K3 : Type} [DecidableEq K3]
    {g : K2 → K3} {k : K3} (hk : ∀ k0, g k0 ≠ k) (c : Cplx) (X : List (K1 × Cplx))
    (h : K1 → List (K2 × Cplx)) :
    sumCoeff (fbind X fun u => mapK g c (h u)) k = 0 := by
  rw [sumCoeff_fbind]
  apply List.sum_eq_zero
  intro x hx
  obtain ⟨y, _, rfl⟩ := List.mem_map.mp hx
  rw [sumCoeff_mapK_of_not_range hk, mul_zero]

/-- Prepend a creation site to a normal-ordered monomial. -/
def pc (q : ℕ) (t : NOTerm) : NOTerm := ⟨q :: t.cre, t.ann⟩

theorem pc_inj (q : ℕ) : Function.Injective (pc q) := by
  intro t1 t2 h
  cases t1; cases t2
  simp only [pc, NOTerm.mk.injEq, List.cons.injEq, true_and] at h
  simp [h.1, h.2]

theorem insertAnnGo_cons (p a q cs) :
    insertAnnGo p a (q :: cs) =
      if p = q then (⟨cs, a⟩, (1 : Cplx)) :: mapK (pc q) (-1) (insertAnnGo p a cs)
      else mapK (pc q) (-1) (insertAnnGo p a cs) := rfl

/-- Transporting an all-cancelling bound expansion through `pc q` keeps
every coefficient zero. -/
theorem sumCoeff_fbind_pc_zero (q : ℕ) (c : Cplx) (X : List (NOTerm × Cplx))
    (h : NOTerm → List (NOTerm × Cplx))
    (hz : ∀ k0, sumCoeff (fbind X h) k0 = 0) (k : NOTerm) :
    sumCoeff (fbind X fun u => mapK (pc q) c (h u)) k = 0 := by
  rcases hk : k.cre with _ | ⟨q2, rest⟩
  · refine sumCoeff_fbind_mapK_of_not_range ?_ _ _ _
    intro k0 hc
    have h3 : q :: k0.cre = [] := by rw [← hc] at hk; exact hk
    exact List.cons_ne_nil _ _ h3
  · by_cases hq2 : q2 = q
    · subst hq2
      have hkeq : k = pc q2 ⟨rest, k.ann⟩ := by
        cases k
        simp_all [pc]
      rw [hkeq, sumCoeff_fbind_mapK_apply (pc_inj q2), hz, mul_zero]
    · refine sumCoeff_fbind_mapK_of_not_range ?_ _ _ _
      intro k0 hc
      have h2 := congrArg NOTerm.cre hc
      rw [hk] at h2
      have h3 : q :: k0.cre = q2 :: rest := h2
      injection h3 with h4 _
      exact hq2 h4.symm

/-- Inserting the same annihilation operator twice into a normal-ordered
monomial yields an expansion whose coefficients all cancel. -/
theorem insertAnn_twice (p : ℕ) :
    ∀ (cs a : List ℕ) (k : NOTerm),
      sumCoeff (fbind (insertAnnGo p a cs) fun u => insertAnnGo p u.ann u.cre) k
        = 0 := by
  intro cs
  induction cs with
  | nil =>
    intro a k
    cases h : insertDesc p a with
    | none => rw [insertAnnGo, h, fbind_nil, sumCoeff_nil]
    | some r =>
      rw [insertAnnGo, h, fbind_cons, fbind_nil, List.append_nil]
      show sumCoeff (fscale r.2 (insertAnnGo p r.1 [])) k = 0
      rw [insertAnnGo, insertDesc_twice (by rw [h]), fscale_nil, sumCoeff_nil]
  | cons q cs ih =>
    intro a k
    by_cases hpq : p = q
    · subst hpq
      rw [insertAnnGo_cons, if_pos rfl, fbind_cons]
      rw [sumCoeff_append, sumCoeff_fscale, one_mul]
      show sumCoeff (insertAnnGo p a cs) k +
        sumCoeff (fbind (mapK (pc p) (-1) (insertAnnGo p a cs))
          fun u => insertAnnGo p u.ann u.cre) k = 0
      rw [fbind_mapK, sumCoeff_fscale]
      have hfun : (fun u => insertAnnGo p (pc p u).ann (pc p u).cre) =
          fun u : NOTerm => [(u, (1 : Cplx))] ++
            mapK (pc p) (-1) (insertAnnGo p u.ann u.cre) := by
        funext u
        show insertAnnGo p u.ann (p :: u.cre) = _
        rw [insertAnnGo_cons, if_pos rfl]
        rfl
      rw [hfun, sumCoeff_fbind_add, sumCoeff_fbind_pure]
      rw [sumCoeff_fbind_pc_zero p (-1) _ _ (ih a) k]
      ring
    · rw [insertAnnGo_cons, if_neg hpq, fbind_mapK, sumCoeff_fscale]
      have hfun : (fun u => insertAnnGo p (pc q u).ann (pc q u).cre) =
          fun u : NOTerm => mapK (pc q) (-1) (insertAnnGo p u.ann u.cre) := by
        funext u
        show insertAnnGo p u.ann (q :: u.cre) = _
        rw [insertAnnGo_cons, if_neg hpq]
      rw [hfun, sumCoeff_fbind_pc_zero q (-1) _ _ (ih a) k, mul_zero]

/-- Inserting the same ladder factor twice cancels completely. -/
theorem insertFac_twice (f : ℕ × Bool) (t : NOTerm) (k : NOTerm) :
    sumCoeff (fbind (insertFacNF f t) (insertFacNF f)) k = 0 := by
  obtain ⟨p, a⟩ := f
  cases a with
  | false =>
    show sumCoeff (fbind (insertAnnGo p t.ann t.cre)
      fun u => insertAnnGo p u.ann u.cre) k = 0
    exact insertAnn_twice p t.cre t.ann k
  | true =>
    show sumCoeff (fbind (insertCre p t) fun u => insertCre p u) k = 0
    rw [show (fun u : NOTerm => insertCre p u) = insertCre p from rfl,
      insertCre_twice, sumCoeff_nil]

theorem normalOrderNF_cons (f : ℕ × Bool) (seq : List (ℕ × Bool)) :
    normalOrderNF (f :: seq) = fbind (normalOrderNF seq) (insertFacNF f) := rfl

/-- A factor sequence containing two adjacent equal ladder factors
normal-orders to an expansion whose coefficients all cancel (§4.3:
`a_p a_p = 0`, `a_p† a_p† = 0`). -/
theorem sumCoeff_normalOrderNF_adj_dup (f : ℕ × Bool) (post : List (ℕ × Bool)) :
    ∀ (pre : List (ℕ × Bool)) (k : NOTerm),
      sumCoeff (normalOrderNF (pre ++ f :: f :: post)) k = 0 := by
  intro pre
  induction pre with
  | nil =>
    intro k
    rw [List.nil_append, normalOrderNF_cons, normalOrderNF_cons, fbind_assoc,
      sumCoeff_fbind]
    apply List.sum_eq_zero
    intro x hx
    obtain ⟨y, _, rfl⟩ := List.mem_map.mp hx
    rw [insertFac_twice, mul_zero]
  | cons g pre ih =>
    intro k
    rw [List.cons_append, normalOrderNF_cons]
    exact sumCoeff_fbind_of_zero ih _ k

theorem toSeq_split : ∀ (c1 : List ℕ) (c2 a1 a2 : List ℕ),
    ((c1.map fun p => (p, true)) ++ a1.map fun p => (p, false)) =
      ((c2.map fun p => (p, true)) ++ a2.map fun p => (p, false)) →
      c1 = c2 ∧ a1 = a2 := by
  intro c1
  induction c1 with
  | nil =>
    intro c2 a1 a2 h
    cases c2 with
    | nil =>
      refine ⟨rfl, ?_⟩
      rw [List.map_nil, List.nil_append, List.nil_append] at h
      have hinj : Function.Injective fun p : ℕ => (p, false) := by
        intro x y hxy
        exact congrArg Prod.fst hxy
      exact List.map_injective_iff.mpr hinj h
    | cons x c2 =>
      exfalso
      rw [List.map_nil, List.nil_append, List.map_cons, List.cons_append] at h
      cases a1 with
      | nil => exact List.cons_ne_nil _ _ h.symm
      | cons y a1 =>
        rw [List.map_cons] at h
        have := congrArg Prod.snd (List.head_eq_of_cons_eq h)
        simp at this
  | cons x c1 ih =>
    intro c2 a1 a2 h
    cases c2 with
    | nil =>
      exfalso
      rw [List.map_nil, List.nil_append, List.map_cons, List.cons_append] at h
      cases a2 with
      | nil => exact List.cons_ne_nil _ _ h
      | cons y a2 =>
        rw [List.map_cons] at h
        have := congrArg Prod.snd (List.head_eq_of_cons_eq h)
        simp at this
    | cons y c2 =>
      rw [List.map_cons, List.map_cons, List.cons_append, List.cons_append] at h
      have hhead := congrArg Prod.fst (List.head_eq_of_cons_eq h)
      have htail := List.tail_eq_of_cons_eq h
      obtain ⟨h1, h2⟩ := ih c2 a1 a2 htail
      simp only at hhead
      rw [hhead, h1, h2]
      exact ⟨rfl, rfl⟩

theorem toSeq_inj : Function.Injective NOTerm.toSeq := by
  intro t1 t2 h
  obtain ⟨c1, a1⟩ := t1
  obtain ⟨c2, a2⟩ := t2
  obtain ⟨h1, h2⟩ := toSeq_split c1 c2 a1 a2 h
  rw [h1, h2]

/-- A raw factor sequence with two adjacent equal ladder factors has a
normal-ordered expansion whose coefficients all cancel. -/
theorem sumCoeff_normalOrderSeq_adj_dup (f : ℕ × Bool) (pre post : List (ℕ × Bool))
    (k : List (ℕ × Bool)) : sumCoeff (normalOrderSeq (pre ++ f :: f :: post)) k = 0 := by
  rw [normalOrderSeq]
  by_cases h : ∃ t : NOTerm, NOTerm.toSeq t = k
  · obtain ⟨t, rfl⟩ := h
    rw [sumCoeff_mapK_apply toSeq_inj, sumCoeff_normalOrderNF_adj_dup, mul_zero]
  · push_neg at h
    exact sumCoeff_mapK_of_not_range h 1 _

/-! ### Qubit operators

Modelled from the spec (§3, §4.4): a qubit term is a sequence of
`(site, Pauli)` pairs with strictly increasing unique sites; multiplication
merges two terms using the single-qubit Pauli product table. -/

/-- The single-qubit Pauli actions. -/
inductive Pauli
  | X
  | Y
  | Z
deriving DecidableEq, Repr

/-- Numeric code of a Pauli action, for the canonical key order. -/
def Pauli.toNat : Pauli → ℕ
  | .X => 0
  | .Y => 1
  | .Z => 2

/-- Encoding of qubit terms used for the canonical key order. -/
def encQubit (l : List (ℕ × Pauli)) : List ℕ :=
  l.flatMap fun e => [e.1, e.2.toNat]

theorem encQubit_inj : Function.Injective encQubit := by
  intro l1
  induction l1 with
  | nil =>
    intro l2 h
    cases l2 with
    | nil => rfl
    | cons e l2 => simp [encQubit] at h
  | cons e1 l1 ih =>
    intro l2 h
    cases l2 with
    | nil => simp [encQubit] at h
    | cons e2 l2 =>
      simp only [encQubit, List.flatMap_cons, List.cons_append, List.nil_append,
        List.cons.injEq] at h
      obtain ⟨h1, h2, h3⟩ := h
      have hb : e1.2 = e2.2 := by
        cases hb1 : e1.2 <;> cases hb2 : e2.2 <;>
          simp [hb1, hb2, Pauli.toNat] at h2 ⊢
      have := ih h3
      rw [Prod.ext h1 hb, this]

instance instKeyCQubit : KeyC (List (ℕ × Pauli)) := ⟨encQubit, encQubit_inj⟩

/-- Modelled from the spec §4.4: the single-qubit Pauli product table,
returning the phase and the resulting action (`none` is the identity). -/
def pmulP : Pauli → Pauli → Cplx × Option Pauli
  | .X, .X => (1, none)
  | .Y, .Y => (1, none)
  | .Z, .Z => (1, none)
  | .X, .Y => (Cplx.iu, some .Z)
  | .Y, .Z => (Cplx.iu, some .X)
  | .Z, .X => (Cplx.iu, some .Y)
  | .Y, .X => (-Cplx.iu, some .Z)
  | .Z, .Y => (-Cplx.iu, some .X)
  | .X, .Z => (-Cplx.iu, some .Y)

/-- Left-multiply a sorted qubit term by one Pauli factor, merging by
site and collecting the phase (§4.4). -/
def insertPF (f : ℕ × Pauli) : List (ℕ × Pauli) → List (ℕ × Pauli) × Cplx
  | [] => ([f], 1)
  | g :: k =>
    if f.1 < g.1 then (f :: g :: k, 1)
    else if f.1 = g.1 then
      match pmulP f.2 g.2 with
      | (c, none) => (k, c)
      | (c, some r) => ((f.1, r) :: k, c)
    else
      let res := insertPF f k
      (g :: res.1, res.2)

/-- Modelled from the spec §4.4: the product of two sorted qubit terms —
always a single term together with a phase. -/
def pmul (t1 t2 : List (ℕ × Pauli)) : List (ℕ × Pauli) × Cplx :=
  t1.foldr (fun f acc => ((insertPF f acc.1).1, (insertPF f acc.1).2 * acc.2)) (t2, 1)

/-- A qubit operator: canonical mapping from qubit terms to coefficients. -/
abbrev QubitOp := List (List (ℕ × Pauli) × Cplx)

/-- Modelled from the spec: literal construction of a qubit operator from
a single term and coefficient (§3 lifecycle). -/
def QubitOperator (t : List (ℕ × Pauli)) (c : Cplx) : QubitOp :=
  normalizeMap tolerance [(t, c)]

/-- The raw bilinear expansion of a product of two qubit operators. -/
def qmulRaw (A B : QubitOp) : List (List (ℕ × Pauli) × Cplx) :=
  fbind A fun t1 => fbind B fun t2 => [((pmul t1 t2).1, (pmul t1 t2).2)]

/-- Modelled from the spec §4.2 `multiply` with the qubit simplification
rule §4.4. -/
def multiplyQ (tol : Tol) (A B : QubitOp) : QubitOp :=
  normalizeMap tol (qmulRaw A B)

/-- Modelled from the spec §4.2 `hermitian_conjugate` for qubit operators:
Pauli factors are self-adjoint, so only coefficients are conjugated. -/
def hermitian_conjugateQ (tol : Tol) (A : QubitOp) : QubitOp :=
  normalizeMap tol (A.map fun e => (e.1, Cplx.conj e.2))

/-! ### The Jordan-Wigner and Bravyi-Kitaev transforms (§4.5) -/

/-- Modelled from the spec §4.5: the Jordan-Wigner image of one ladder
factor on site `p`: `½(X_p ∓ i Y_p) · Z_0 ⋯ Z_{p−1}` with `−` for
creation (`a = true`) and `+` for annihilation. -/
def jwFactor (p : ℕ) (a : Bool) : List (List (ℕ × Pauli) × Cplx) :=
  [((List.range p).map (fun i => (i, Pauli.Z)) ++ [(p, Pauli.X)], Cplx.half),
   ((List.range p).map (fun i => (i, Pauli.Z)) ++ [(p, Pauli.Y)],
     if a then -Cplx.halfI else Cplx.halfI)]

/-- Linear extension of a per-factor image to a whole fermionic term: the
ordered product (via §4.4 multiplication) of the factor images. -/
def transformTerm (img : ℕ → Bool → List (List (ℕ × Pauli) × Cplx))
    (t : List (ℕ × Bool)) : List (List (ℕ × Pauli) × Cplx) :=
  t.foldr (fun f acc => qmulRaw (img f.1 f.2) acc) [([], 1)]

/-- Linear extension of a per-factor image to a whole fermionic operator. -/
def transformOp (img : ℕ → Bool → List (List (ℕ × Pauli) × Cplx)) (tol : Tol)
    (A : FermionOp) : QubitOp :=
  normalizeMap tol (fbind A (transformTerm img))

/-- Modelled from the spec §4.5: the Jordan-Wigner transform. -/
def jordan_wigner (tol : Tol) (A : FermionOp) : QubitOp :=
  transformOp jwFactor tol A

/-- Lowest set bit of a positive number (Fenwick-tree step). -/
def lowbit (m : ℕ) : ℕ := m - (m &&& (m - 1))

/-- Fenwick-tree ancestors of node `m` that store mode sums containing it,
within `n` qubits (fuel-bounded walk `m ← m + lowbit m`). -/
def updateRun (n : ℕ) : ℕ → ℕ → List ℕ
  | 0, _ => []
  | fuel + 1, m => if m ≤ n then (m - 1) :: updateRun n fuel (m + lowbit m) else []

/-- Modelled from the spec §4.5: the Bravyi-Kitaev update set of mode `j`
— the qubits above `j` in the binary-indexed (Fenwick) partitioning whose
stored sums contain mode `j`. -/
def updateSet (n j : ℕ) : List ℕ :=
  match updateRun n (n + 1) (j + 1) with
  | [] => []
  | _ :: rest => rest

/-- Fenwick-tree prefix walk (`m ← m − lowbit m`). -/
def parityRun : ℕ → ℕ → List ℕ
  | 0, _ => []
  | fuel + 1, m => if m = 0 then [] else (m - 1) :: parityRun fuel (m - lowbit m)

/-- Modelled from the spec §4.5: the Bravyi-Kitaev parity set of mode `j`
— the qubits that together store the occupation parity of modes `< j`. -/
def paritySet (j : ℕ) : List ℕ := parityRun (j + 1) j

/-- Fenwick-tree children walk for the flip set. -/
def flipRun : ℕ → ℕ → ℕ → List ℕ
  | 0, _, _ => []
  | fuel + 1, b, c => if b < c then (c - 1) :: flipRun fuel b (c - lowbit c) else []

/-- Modelled from the spec §4.5: the Bravyi-Kitaev flip set of mode `j` —
the qubits whose occupations are stored together with mode `j` in qubit
`j` (the Fenwick children of node `j + 1`). -/
def flipSet (j : ℕ) : List ℕ := flipRun (j + 1) ((j + 1) - lowbit (j + 1)) j

/-- The remainder set: parity set minus flip set. -/
def remSet (j : ℕ) : List ℕ :=
  (paritySet j).filter fun x => !((flipSet j).contains x)

/-- Modelled from the spec §4.5: the Bravyi-Kitaev image of one ladder
factor — a weighted sum of two Pauli strings built from the update,
parity and remainder sets (the `½(X ∓ iY)` structure generalized with the
BK parity sets). -/
def bkFactor (n j : ℕ) (a : Bool) : List (List (ℕ × Pauli) × Cplx) :=
  [((paritySet j).reverse.map (fun i => (i, Pauli.Z)) ++ [(j, Pauli.X)] ++
      (updateSet n j).map (fun i => (i, Pauli.X)), Cplx.half),
   ((remSet j).reverse.map (fun i => (i, Pauli.Z)) ++ [(j, Pauli.Y)] ++
      (updateSet n j).map (fun i => (i, Pauli.X)),
     if a then -Cplx.halfI else Cplx.halfI)]

/-- The Bravyi-Kitaev transform on a fixed budget of `n` qubits, without
the qubit-count check. -/
def bkTransform (tol : Tol) (n : ℕ) (A : FermionOp) : QubitOp :=
  transformOp (bkFactor n) tol A

/-- Modelled from the spec: the number of qubits required by a fermionic
operator — the highest site index touched plus one (0 when no factor). -/
def requiredQubits (A : FermionOp) : ℕ :=
  A.foldr (fun e acc => max acc (e.1.foldr (fun f m => max m (f.1 + 1)) 0)) 0

/-- Modelled from the spec §7: error kinds of the transform engine. -/
inductive TransformError
  | insufficientQubitCount
deriving DecidableEq, Repr

/-- Modelled from the spec §4.5: the Bravyi-Kitaev transform with a
caller-supplied total qubit count, failing with
`InsufficientQubitCountError` when the count is below the highest touched
site index plus one. -/
def bravyi_kitaev (tol : Tol) (A : FermionOp) (n : ℕ) : Except TransformError QubitOp :=
  if n < requiredQubits A then .error .insufficientQubitCount
  else .ok (bkTransform tol n A)

/-! ### Sparse materialization (§4.6)

A `QubitOperator` on `n` qubits is materialized as an explicit
`2ⁿ × 2ⁿ` complex matrix: each term becomes the Kronecker product of
single-qubit Pauli matrices across all qubit positions, scaled by its
coefficient, and the terms are summed. -/

/-- The index type of the `n`-qubit state space: one `Bool` per qubit
position, so the matrices are `2 ^ n` dimensional. -/
def idxT : ℕ → Type
  | 0 => Unit
  | n + 1 => Bool × idxT n

def idxTFintype : (n : ℕ) → Fintype (idxT n)
  | 0 => inferInstanceAs (Fintype Unit)
  | n + 1 =>
    letI := idxTFintype n
    inferInstanceAs (Fintype (Bool × idxT n))

instance instIdxTFintype (n : ℕ) : Fintype (idxT n) := idxTFintype n

def idxTDecEq : (n : ℕ) → DecidableEq (idxT n)
  | 0 => inferInstanceAs (DecidableEq Unit)
  | n + 1 =>
    letI := idxTDecEq n
    inferInstanceAs (DecidableEq (Bool × idxT n))

instance instIdxTDecEq (n : ℕ) : DecidableEq (idxT n) := idxTDecEq n

def idxTInhabited : (n : ℕ) → Inhabited (idxT n)
  | 0 => ⟨()⟩
  | n + 1 =>
    letI := idxTInhabited n
    ⟨(false, default)⟩

instance instIdxTInhabited (n : ℕ) : Inhabited (idxT n) := idxTInhabited n

/-- The 2×2 matrix of a single-site Pauli action (`none` = identity),
with exact Gaussian-dyadic entries. -/
def pmat : Option Pauli → Matrix Bool Bool Cplx
  | none => 1
  | some .X => Matrix.of fun r c => if r = c then 0 else 1
  | some .Y => Matrix.of fun r c => if r = c then 0 else if r then Cplx.iu else -Cplx.iu
  | some .Z => Matrix.of fun r c => if r = c then (if r then -1 else 1) else 0

/-- Pointwise single-site product action. -/
def sProd : Option Pauli → Option Pauli → Option Pauli
  | none, y => y
  | some x, none => some x
  | some x, some y => (pmulP x y).2

/-- Pointwise single-site product phase. -/
def sPhase : Option Pauli → Option Pauli → Cplx
  | none, _ => 1
  | some _, none => 1
  | some x, some y => (pmulP x y).1

/-- The Pauli action of a qubit term at a site. -/
def lookupP : List (ℕ × Pauli) → ℕ → Option Pauli
  | [], _ => none
  | f :: k, i => if f.1 = i then some f.2 else lookupP k i

/-- The `n`-fold Kronecker product of the single-site matrices selected by
a site-action assignment (site `n−1` outermost). -/
def mQ : (n : ℕ) → (ℕ → Option Pauli) → Matrix (idxT n) (idxT n) Cplx
  | 0, _ => 1
  | n + 1, f => Matrix.kronecker (pmat (f n)) (mQ n f)

/-- The product of the per-site phases over the first `n` sites. -/
def phaseBelow (n : ℕ) (f g : ℕ → Option Pauli) : Cplx :=
  ((List.range n).map fun i => sPhase (f i) (g i)).prod

/-- Modelled from the spec §4.6: sparse materialization of a qubit
operator into an explicit `2 ^ n`-dimensional matrix (named after the
`get_sparse_operator` call in the source notebook), with exact entries. -/
def get_sparse_operator (n : ℕ) (A : QubitOp) : Matrix (idxT n) (idxT n) Cplx :=
  (A.map fun e => e.2 • mQ n (lookupP e.1)).sum

/-- The single-site Pauli matrices multiply according to the symbolic
table: product matrix = phase • product action. -/
theorem pmat_mul (a b : Option Pauli) :
    pmat a * pmat b = sPhase a b • pmat (sProd a b) := by
  cases a with
  | none =>
    cases b with
    | none => decide
    | some py => cases py <;> decide
  | some px =>
    cases b with
    | none => cases px <;> decide
    | some py => cases px <;> cases py <;> decide

theorem mQ_none (n : ℕ) : mQ n (fun _ => none) = 1 := by
  induction n with
  | zero => rfl
  | succ n ih =>
    show Matrix.kronecker (pmat none) (mQ n fun _ => none) = 1
    rw [ih]
    exact Matrix.one_kronecker_one

theorem phaseBelow_zero (f g : ℕ → Option Pauli) : phaseBelow 0 f g = 1 := rfl

theorem phaseBelow_succ (n : ℕ) (f g : ℕ → Option Pauli) :
    phaseBelow (n + 1) f g = phaseBelow n f g * sPhase (f n) (g n) := by
  rw [phaseBelow, phaseBelow, List.range_succ, List.map_append, List.prod_append]
  simp

theorem phaseBelow_one {n : ℕ} {f g : ℕ → Option Pauli}
    (h : ∀ i < n, sPhase (f i) (g i) = 1) : phaseBelow n f g = 1 := by
  apply List.prod_eq_one
  intro x hx
  obtain ⟨i, hi, rfl⟩ := List.mem_map.mp hx
  exact h i (List.mem_range.mp hi)

theorem phaseBelow_congrF {n : ℕ} {f1 f2 g : ℕ → Option Pauli}
    (h : ∀ i < n, f1 i = f2 i) : phaseBelow n f1 g = phaseBelow n f2 g := by
  rw [phaseBelow, phaseBelow]
  apply congrArg
  apply List.map_congr_left
  intro i hi
  rw [h i (List.mem_range.mp hi)]

theorem mQ_congr {n : ℕ} {f g : ℕ → Option Pauli} (h : ∀ i < n, f i = g i) :
    mQ n f = mQ n g := by
  induction n with
  | zero => rfl
  | succ n ih =>
    show Matrix.kronecker (pmat (f n)) (mQ n f) = Matrix.kronecker (pmat (g n)) (mQ n g)
    rw [h n (Nat.lt_succ_self n), ih fun i hi => h i (Nat.lt_trans hi (Nat.lt_succ_self n))]

theorem mQ_mul (n : ℕ) (f g : ℕ → Option Pauli) :
    mQ n f * mQ n g = phaseBelow n f g • mQ n fun i => sProd (f i) (g i) := by
  induction n with
  | zero =>
    show (1 : Matrix (idxT 0) (idxT 0) Cplx) * 1 = phaseBelow 0 f g • 1
    rw [one_mul, phaseBelow_zero, one_smul]
  | succ n ih =>
    show Matrix.kroneckerMap (fun a b => a * b) (pmat (f n)) (mQ n f) *
        Matrix.kroneckerMap (fun a b => a * b) (pmat (g n)) (mQ n g) = _
    rw [← Matrix.mul_kronecker_mul, ih, pmat_mul, Matrix.smul_kronecker,
      Matrix.kronecker_smul, smul_smul, phaseBelow_succ,
      mul_comm (sPhase (f n) (g n)) (phaseBelow n f g)]
    rfl

/-! Sorted qubit terms and the correctness of the symbolic product. -/

/-- Strictly-ascending-site check for qubit terms. -/
def ascB : List (ℕ × Pauli) → Bool
  | [] => true
  | [_] => true
  | a :: b :: t => decide (a.1 < b.1) && ascB (b :: t)

/-- All sites of a qubit term lie below `n`. -/
def sitesLtB (n : ℕ) (t : List (ℕ × Pauli)) : Bool := t.all fun f => decide (f.1 < n)

theorem bandL {a b : Bool} (h : (a && b) = true) : a = true := by
  cases a
  · exact Bool.noConfusion h
  · rfl

theorem bandR {a b : Bool} (h : (a && b) = true) : b = true := by
  cases a
  · exact Bool.noConfusion h
  · exact h

theorem bandI {a b : Bool} (h1 : a = true) (h2 : b = true) : (a && b) = true := by
  rw [h1, h2]
  rfl

theorem ascB_tail {a : ℕ × Pauli} {l : List (ℕ × Pauli)} (h : ascB (a :: l) = true) :
    ascB l = true := by
  cases l with
  | nil => rfl
  | cons b t => exact bandR h

theorem ascB_head_lt : ∀ {l : List (ℕ × Pauli)} (a : ℕ × Pauli),
    ascB (a :: l) = true → ∀ y ∈ l, a.1 < y.1 := by
  intro l
  induction l with
  | nil =>
    intro a _ y hy
    cases hy
  | cons b t ih =>
    intro a h y hy
    have h1 : a.1 < b.1 := of_decide_eq_true (bandL h)
    rcases List.mem_cons.mp hy with h2 | h2
    · rw [h2]; exact h1
    · exact Nat.lt_trans h1 (ih b (bandR h) y h2)

theorem ascB_cons {a : ℕ × Pauli} {l : List (ℕ × Pauli)}
    (h1 : ∀ y ∈ l, a.1 < y.1) (h2 : ascB l = true) : ascB (a :: l) = true := by
  cases l with
  | nil => rfl
  | cons b t =>
    show (decide (a.1 < b.1) && ascB (b :: t)) = true
    exact bandI (decide_eq_true (h1 b (List.mem_cons_self b t))) h2

theorem lookupP_eq_none {k : List (ℕ × Pauli)} {i : ℕ} (h : ∀ y ∈ k, y.1 ≠ i) :
    lookupP k i = none := by
  induction k with
  | nil => rfl
  | cons f k ih =>
    rw [lookupP, if_neg (h f (List.mem_cons_self f k))]
    exact ih fun y hy => h y (List.mem_cons_of_mem f hy)

theorem lookupP_head_none {a : ℕ × Pauli} {l : List (ℕ × Pauli)}
    (h : ascB (a :: l) = true) : lookupP l a.1 = none :=
  lookupP_eq_none fun y hy => (ascB_head_lt a h y hy).ne'

theorem insertPF_keys {f : ℕ × Pauli} :
    ∀ {k : List (ℕ × Pauli)}, ∀ y ∈ (insertPF f k).1, y.1 = f.1 ∨ ∃ z ∈ k, y.1 = z.1 := by
  intro k
  induction k with
  | nil =>
    intro y hy
    rcases List.mem_singleton.mp hy with rfl
    exact Or.inl rfl
  | cons g k ih =>
    intro y hy
    rw [insertPF] at hy
    by_cases h1 : f.1 < g.1
    · rw [if_pos h1] at hy
      rcases List.mem_cons.mp hy with h2 | h2
      · exact Or.inl (by rw [h2])
      · exact Or.inr ⟨y, h2, rfl⟩
    · rw [if_neg h1] at hy
      by_cases h2 : f.1 = g.1
      · rw [if_pos h2] at hy
        rcases hpm : pmulP f.2 g.2 with ⟨c, _ | r⟩
        · rw [hpm] at hy
          exact Or.inr ⟨y, List.mem_cons_of_mem g hy, rfl⟩
        · rw [hpm] at hy
          rcases List.mem_cons.mp hy with h3 | h3
          · exact Or.inl (by rw [h3])
          · exact Or.inr ⟨y, List.mem_cons_of_mem g h3, rfl⟩
      · rw [if_neg h2] at hy
        rcases List.mem_cons.mp hy with h3 | h3
        · exact Or.inr ⟨g, List.mem_cons_self g k, by rw [h3]⟩
        · rcases ih y h3 with h4 | ⟨z, hz, h4⟩
          · exact Or.inl h4
          · exact Or.inr ⟨z, List.mem_cons_of_mem g hz, h4⟩

theorem insertPF_ascB {f : ℕ × Pauli} :
    ∀ {k : List (ℕ × Pauli)}, ascB k = true → ascB (insertPF f k).1 = true := by
  intro k
  induction k with
  | nil => intro _; rfl
  | cons g k ih =>
    intro h
    rw [insertPF]
    by_cases h1 : f.1 < g.1
    · rw [if_pos h1]
      refine ascB_cons ?_ h
      intro y hy
      rcases List.mem_cons.mp hy with h2 | h2
      · rw [h2]; exact h1
      · exact Nat.lt_trans h1 (ascB_head_lt g h y h2)
    · rw [if_neg h1]
      by_cases h2 : f.1 = g.1
      · rw [if_pos h2]
        rcases hpm : pmulP f.2 g.2 with ⟨c, _ | r⟩
        · show ascB k = true
          exact ascB_tail h
        · show ascB ((f.1, r) :: k) = true
          refine ascB_cons ?_ (ascB_tail h)
          intro y hy
          rw [show ((f.1, r) : ℕ × Pauli).1 = f.1 from rfl, h2]
          exact ascB_head_lt g h y hy
      · rw [if_neg h2]
        refine ascB_cons ?_ (ih (ascB_tail h))
        intro y hy
        rcases insertPF_keys y hy with h3 | ⟨z, hz, h3⟩
        · rw [h3]; omega
        · rw [h3]; exact ascB_head_lt g h z hz

theorem insertPF_sites {n : ℕ} {f : ℕ × Pauli} {k : List (ℕ × Pauli)}
    (hk : sitesLtB n k = true) (hf : f.1 < n) : sitesLtB n (insertPF f k).1 = true := by
  rw [sitesLtB, List.all_eq_true]
  intro y hy
  rcases insertPF_keys y hy with h1 | ⟨z, hz, h1⟩
  · exact decide_eq_true (h1 ▸ hf)
  · rw [sitesLtB, List.all_eq_true] at hk
    exact decide_eq_true (h1 ▸ of_decide_eq_true (hk z hz))

theorem lookupP_cons (g : ℕ × Pauli) (k : List (ℕ × Pauli)) (i : ℕ) :
    lookupP (g :: k) i = if g.1 = i then some g.2 else lookupP k i := rfl

theorem insertPF_lookup {f : ℕ × Pauli} :
    ∀ {k : List (ℕ × Pauli)}, ascB k = true → ∀ i,
      lookupP (insertPF f k).1 i =
        if i = f.1 then sProd (some f.2) (lookupP k i) else lookupP k i := by
  intro k
  induction k with
  | nil =>
    intro _ i
    show (if f.1 = i then some f.2 else none) = _
    by_cases h : i = f.1
    · rw [if_pos h.symm, if_pos h]
      rfl
    · rw [if_neg fun hh => h hh.symm, if_neg h]
      rfl
  | cons g k ih =>
    intro hasc i
    rw [insertPF]
    by_cases h1 : f.1 < g.1
    · rw [if_pos h1]
      show (if f.1 = i then some f.2 else lookupP (g :: k) i) = _
      by_cases h : i = f.1
      · rw [if_pos h.symm, if_pos h]
        have hnone : lookupP (g :: k) i = none := by
          apply lookupP_eq_none
          intro y hy
          rcases List.mem_cons.mp hy with h2 | h2
          · rw [h2]; omega
          · have h3 := ascB_head_lt g hasc y h2; omega
        rw [hnone]
        rfl
      · rw [if_neg fun hh => h hh.symm, if_neg h]
    · rw [if_neg h1]
      by_cases h2 : f.1 = g.1
      · rw [if_pos h2]
        have hknone : lookupP k f.1 = none := by
          rw [h2]
          exact lookupP_head_none hasc
        rcases hpm : pmulP f.2 g.2 with ⟨c, res⟩
        cases res with
        | none =>
          show lookupP k i = _
          by_cases h : i = f.1
          · rw [if_pos h, lookupP_cons, if_pos (h.trans h2).symm]
            rw [show sProd (some f.2) (some g.2) = (pmulP f.2 g.2).2 from rfl, hpm]
            rw [h]
            exact hknone
          · rw [if_neg h, lookupP_cons, if_neg fun hh => h (hh.symm.trans h2.symm)]
        | some r =>
          show (if f.1 = i then some r else lookupP k i) = _
          by_cases h : i = f.1
          · rw [if_pos h.symm, if_pos h, lookupP_cons, if_pos (h.trans h2).symm]
            show some r = (pmulP f.2 g.2).2
            rw [hpm]
          · rw [if_neg fun hh => h hh.symm, if_neg h, lookupP_cons,
              if_neg fun hh => h (hh.symm.trans h2.symm)]
      · rw [if_neg h2]
        show (if g.1 = i then some g.2 else lookupP (insertPF f k).1 i) = _
        have hgf : g.1 < f.1 := by omega
        by_cases h : i = f.1
        · rw [if_neg (show ¬ g.1 = i by omega), if_pos h, ih (ascB_tail hasc) i, if_pos h,
            lookupP_cons, if_neg (show ¬ g.1 = i by omega)]
        · rw [if_neg h]
          by_cases hgi : g.1 = i
          · rw [if_pos hgi, lookupP_cons, if_pos hgi]
          · rw [if_neg hgi, ih (ascB_tail hasc) i, if_neg h, lookupP_cons, if_neg hgi]

theorem insertPF_phase {f : ℕ × Pauli} :
    ∀ {k : List (ℕ × Pauli)}, ascB k = true →
      (insertPF f k).2 = sPhase (some f.2) (lookupP k f.1) := by
  intro k
  induction k with
  | nil => intro _; rfl
  | cons g k ih =>
    intro hasc
    rw [insertPF]
    by_cases h1 : f.1 < g.1
    · rw [if_pos h1]
      have hnone : lookupP (g :: k) f.1 = none := by
        apply lookupP_eq_none
        intro y hy
        rcases List.mem_cons.mp hy with h2 | h2
        · rw [h2]; omega
        · have := ascB_head_lt g hasc y h2; omega
      rw [hnone]
      rfl
    · rw [if_neg h1]
      by_cases h2 : f.1 = g.1
      · rw [if_pos h2]
        rw [show lookupP (g :: k) f.1 = some g.2 by
          show (if g.1 = f.1 then some g.2 else lookupP k f.1) = some g.2
          rw [if_pos h2.symm]]
        rcases hpm : pmulP f.2 g.2 with ⟨c, _ | r⟩ <;>
          · show c = (pmulP f.2 g.2).1
            rw [hpm]
      · rw [if_neg h2]
        show (insertPF f k).2 = _
        rw [ih (ascB_tail hasc)]
        rw [show lookupP (g :: k) f.1 = lookupP k f.1 by
          show (if g.1 = f.1 then some g.2 else lookupP k f.1) = lookupP k f.1
          rw [if_neg fun hh => h2 hh.symm]]

theorem pmul_ascB {t2 : List (ℕ × Pauli)} :
    ∀ t1 : List (ℕ × Pauli), ascB t2 = true → ascB (pmul t1 t2).1 = true := by
  intro t1
  induction t1 with
  | nil => intro h2; exact h2
  | cons f r ih => intro h2; exact insertPF_ascB (ih h2)

theorem pmul_sites {n : ℕ} {t2 : List (ℕ × Pauli)} :
    ∀ t1 : List (ℕ × Pauli), sitesLtB n t2 = true → sitesLtB n t1 = true →
      sitesLtB n (pmul t1 t2).1 = true := by
  intro t1
  induction t1 with
  | nil => intro h2 _; exact h2
  | cons f r ih =>
    intro h2 h1
    rw [sitesLtB, List.all_cons] at h1
    exact insertPF_sites (ih h2 (bandR h1)) (of_decide_eq_true (bandL h1))

theorem pmul_lookup {t2 : List (ℕ × Pauli)} :
    ∀ t1 : List (ℕ × Pauli), ascB t2 = true → ascB t1 = true → ∀ i,
      lookupP (pmul t1 t2).1 i = sProd (lookupP t1 i) (lookupP t2 i) := by
  intro t1
  induction t1 with
  | nil =>
    intro _ _ i
    rfl
  | cons f r ih =>
    intro h2 h1 i
    show lookupP (insertPF f (pmul r t2).1).1 i = _
    rw [insertPF_lookup (pmul_ascB r h2) i, lookupP_cons]
    by_cases h : i = f.1
    · rw [if_pos h, if_pos h.symm, ih h2 (ascB_tail h1) i, h, lookupP_head_none h1]
      cases lookupP t2 f.1 with
      | none => rfl
      | some p => rfl
    · rw [if_neg h, if_neg fun hh => h hh.symm, ih h2 (ascB_tail h1) i]

theorem phaseBelow_extract {n : ℕ} {f1 f2 g : ℕ → Option Pauli} {j : ℕ}
    (hj : j < n) (hagree : ∀ i, i ≠ j → f1 i = f2 i) (hnone : f2 j = none) :
    phaseBelow n f1 g = sPhase (f1 j) (g j) * phaseBelow n f2 g := by
  induction n with
  | zero => omega
  | succ m ih =>
    by_cases hjm : j = m
    · rw [phaseBelow_succ, phaseBelow_succ,
        phaseBelow_congrF fun i hi => hagree i (by omega), ← hjm, hnone]
      rw [show sPhase none (g j) = 1 from rfl]
      ring
    · rw [phaseBelow_succ, phaseBelow_succ, ih (by omega), hagree m fun hh => hjm hh.symm]
      ring

theorem pmul_phase {n : ℕ} {t2 : List (ℕ × Pauli)} :
    ∀ t1 : List (ℕ × Pauli), ascB t2 = true → ascB t1 = true → sitesLtB n t1 = true →
      (pmul t1 t2).2 = phaseBelow n (lookupP t1) (lookupP t2) := by
  intro t1
  induction t1 with
  | nil =>
    intro _ _ _
    symm
    apply phaseBelow_one
    intro i _
    rfl
  | cons f r ih =>
    intro h2 h1 hs1
    rw [sitesLtB, List.all_cons] at hs1
    have hfn : f.1 < n := of_decide_eq_true (bandL hs1)
    show (insertPF f (pmul r t2).1).2 * (pmul r t2).2 = _
    rw [insertPF_phase (pmul_ascB r h2), pmul_lookup r h2 (ascB_tail h1) f.1,
      lookupP_head_none h1, ih h2 (ascB_tail h1) (bandR hs1)]
    rw [show sProd none (lookupP t2 f.1) = lookupP t2 f.1 from rfl]
    have hextract : phaseBelow n (lookupP (f :: r)) (lookupP t2) =
        sPhase (lookupP (f :: r) f.1) (lookupP t2 f.1) *
          phaseBelow n (lookupP r) (lookupP t2) := by
      apply phaseBelow_extract hfn
      · intro i hi
        rw [lookupP_cons, if_neg fun hh => hi hh.symm]
      · exact lookupP_head_none h1
    rw [hextract, lookupP_cons, if_pos rfl]

theorem mQ_pmul {n : ℕ} {t1 t2 : List (ℕ × Pauli)}
    (h1 : ascB t1 = true) (h2 : ascB t2 = true) (hs1 : sitesLtB n t1 = true) :
    mQ n (lookupP t1) * mQ n (lookupP t2) =
      (pmul t1 t2).2 • mQ n (lookupP (pmul t1 t2).1) := by
  rw [mQ_mul]
  have hkey : mQ n (fun i => sProd (lookupP t1 i) (lookupP t2 i)) =
      mQ n (lookupP (pmul t1 t2).1) :=
    congrArg (mQ n) (funext fun i => (pmul_lookup t1 h2 h1 i).symm)
  rw [hkey, pmul_phase t1 h2 h1 hs1]

/-! Linearity of the materialization and its multiplicativity on
well-formed operators. -/

/-- Every term of the operator is sorted with all sites below `n`. -/
def QOpWfB (n : ℕ) (A : QubitOp) : Bool :=
  A.all fun e => ascB e.1 && sitesLtB n e.1

theorem gso_nil (n : ℕ) : get_sparse_operator n ([] : QubitOp) = 0 := rfl

theorem gso_cons (n : ℕ) (e : List (ℕ × Pauli) × Cplx) (A : QubitOp) :
    get_sparse_operator n (e :: A) =
      e.2 • mQ n (lookupP e.1) + get_sparse_operator n A := by
  rw [get_sparse_operator, get_sparse_operator, List.map_cons, List.sum_cons]

theorem gso_append (n : ℕ) (A B : QubitOp) :
    get_sparse_operator n (A ++ B) = get_sparse_operator n A + get_sparse_operator n B := by
  rw [get_sparse_operator, get_sparse_operator, get_sparse_operator, List.map_append,
    List.sum_append]

theorem gso_fscale (n : ℕ) (c : Cplx) (A : QubitOp) :
    get_sparse_operator n (fscale c A) = c • get_sparse_operator n A := by
  induction A with
  | nil => rw [show fscale c ([] : QubitOp) = [] from rfl, gso_nil, smul_zero]
  | cons e A ih =>
    rw [fscale_cons, gso_cons, gso_cons, ih, smul_add, smul_smul]

theorem gso_insertAdd (n : ℕ) (e : List (ℕ × Pauli) × Cplx) (m : QubitOp) :
    get_sparse_operator n (insertAdd e m) =
      e.2 • mQ n (lookupP e.1) + get_sparse_operator n m := by
  induction m with
  | nil =>
    rw [show insertAdd e ([] : QubitOp) = [e] from rfl, gso_cons]
  | cons f m ih =>
    rw [insertAdd]
    by_cases h1 : e.1 = f.1
    · rw [if_pos h1, gso_cons, gso_cons, h1, add_smul, add_assoc]
    · rw [if_neg h1]
      by_cases h2 : kLt e.1 f.1 = true
      · rw [if_pos h2, gso_cons, gso_cons]
      · rw [if_neg h2, gso_cons, ih, gso_cons, add_left_comm]

theorem gso_collect (n : ℕ) (l : QubitOp) :
    get_sparse_operator n (collectMap l) = get_sparse_operator n l := by
  induction l with
  | nil => rfl
  | cons e l ih =>
    rw [show collectMap (e :: l) = insertAdd e (collectMap l) from rfl, gso_insertAdd,
      ih, gso_cons]

theorem gso_pruneExact (n : ℕ) (m : QubitOp) :
    get_sparse_operator n (pruneMap exactTol m) = get_sparse_operator n m := by
  induction m with
  | nil => rfl
  | cons e m ih =>
    cases hsm : Cplx.small exactTol e.2 with
    | true =>
      have he : e.2 = 0 := Cplx.small_exact_iff.mp hsm
      have hl : pruneMap exactTol (e :: m) = pruneMap exactTol m := by
        simp [pruneMap, List.filter_cons, hsm]
      rw [hl, ih, gso_cons, he, zero_smul, zero_add]
    | false =>
      have hl : pruneMap exactTol (e :: m) = e :: pruneMap exactTol m := by
        simp [pruneMap, List.filter_cons, hsm]
      rw [hl, gso_cons, ih, gso_cons]

theorem gso_normalizeExact (n : ℕ) (l : QubitOp) :
    get_sparse_operator n (normalizeMap exactTol l) = get_sparse_operator n l := by
  rw [normalizeMap, gso_pruneExact, gso_collect]

theorem gso_inner (n : ℕ) {t1 : List (ℕ × Pauli)} (h1 : ascB t1 = true)
    (hs1 : sitesLtB n t1 = true) :
    ∀ B : QubitOp, QOpWfB n B = true →
      get_sparse_operator n (fbind B fun t2 => [((pmul t1 t2).1, (pmul t1 t2).2)]) =
        mQ n (lookupP t1) * get_sparse_operator n B := by
  intro B
  induction B with
  | nil =>
    intro _
    rw [show (fbind ([] : QubitOp) fun t2 => [((pmul t1 t2).1, (pmul t1 t2).2)]) =
        ([] : QubitOp) from rfl, gso_nil, mul_zero]
  | cons e B ih =>
    intro hwf
    rw [QOpWfB, List.all_cons] at hwf
    have h2 : ascB e.1 = true := bandL (bandL hwf)
    have hwB : QOpWfB n B = true := bandR hwf
    rw [show (fbind (e :: B) fun t2 => [((pmul t1 t2).1, (pmul t1 t2).2)]) =
        fscale e.2 [((pmul t1 e.1).1, (pmul t1 e.1).2)] ++
          (fbind B fun t2 => [((pmul t1 t2).1, (pmul t1 t2).2)]) from rfl,
      gso_append, gso_fscale, ih hwB, gso_cons, gso_nil, add_zero,
      ← mQ_pmul h1 h2 hs1, gso_cons, mul_add, mul_smul_comm]

theorem gso_qmulRaw (n : ℕ) :
    ∀ A B : QubitOp, QOpWfB n A = true → QOpWfB n B = true →
      get_sparse_operator n (qmulRaw A B) =
        get_sparse_operator n A * get_sparse_operator n B := by
  intro A
  induction A with
  | nil =>
    intro B _ _
    rw [show qmulRaw [] B = [] from rfl, gso_nil, zero_mul]
  | cons e A ih =>
    intro B hA hB
    rw [QOpWfB, List.all_cons] at hA
    rw [show qmulRaw (e :: A) B =
        fscale e.2 (fbind B fun t2 => [((pmul e.1 t2).1, (pmul e.1 t2).2)]) ++
          qmulRaw A B from rfl,
      gso_append, gso_fscale, gso_inner n (bandL (bandL hA)) (bandR (bandL hA)) B hB,
      ih B (bandR hA) hB, gso_cons, add_mul, smul_mul_assoc]

theorem gso_multiplyQ_exact (n : ℕ) (A B : QubitOp) (hA : QOpWfB n A = true)
    (hB : QOpWfB n B = true) :
    get_sparse_operator n (multiplyQ exactTol A B) =
      get_sparse_operator n A * get_sparse_operator n B := by
  rw [multiplyQ, gso_normalizeExact, gso_qmulRaw n A B hA hB]

/-! Semantics of the exact dyadic complex scalars in `ℂ`, and the spectrum
of a square-zero matrix. -/

/-- The value of an exact dyadic complex scalar as a complex number. -/
noncomputable def Cplx.toC (c : Cplx) : ℂ :=
  ((c.re.toQ : ℚ) : ℂ) + ((c.im.toQ : ℚ) : ℂ) * Complex.I

theorem Cplx.toC_zero : (0 : Cplx).toC = 0 := by
  simp [Cplx.toC, Dyad.toQ_zero]

theorem Cplx.toC_one : (1 : Cplx).toC = 1 := by
  simp [Cplx.toC, Dyad.toQ_one, Dyad.toQ_zero]

theorem Cplx.toC_add (x y : Cplx) : (x + y).toC = x.toC + y.toC := by
  simp only [Cplx.toC, Cplx.add_re, Cplx.add_im, Dyad.toQ_add]
  push_cast
  ring

theorem Cplx.toC_mul (x y : Cplx) : (x * y).toC = x.toC * y.toC := by
  have hsub : ∀ a b : Dyad, (a - b).toQ = a.toQ - b.toQ := by
    intro a b
    rw [sub_eq_add_neg, Dyad.toQ_add, Dyad.toQ_neg, sub_eq_add_neg]
  simp only [Cplx.toC, Cplx.mul_re, Cplx.mul_im, hsub, Dyad.toQ_add, Dyad.toQ_mul]
  have hI : Complex.I * Complex.I = -1 := Complex.I_mul_I
  push_cast
  linear_combination (-(((x.im.toQ : ℚ) : ℂ) * ((y.im.toQ : ℚ) : ℂ))) * hI

/-- The scalar semantics bundled as a ring homomorphism. -/
noncomputable def Cplx.toCHom : Cplx →+* ℂ :=
  ⟨⟨⟨Cplx.toC, Cplx.toC_one⟩, Cplx.toC_mul⟩, Cplx.toC_zero, Cplx.toC_add⟩

theorem Cplx.toCHom_apply (c : Cplx) : Cplx.toCHom c = c.toC := rfl

/-- The spectrum of a square-zero complex matrix is exactly `{0}`. -/
theorem spectrum_eq_zero_of_sq_zero {m : Type} [Fintype m] [DecidableEq m] [Nonempty m]
    (M : Matrix m m ℂ) (h : M * M = 0) : spectrum ℂ M = {0} := by
  apply Set.eq_singleton_iff_unique_mem.mpr
  constructor
  · rw [spectrum.zero_mem_iff]
    intro hu
    obtain ⟨u, hu⟩ := hu
    have hinv : (↑u⁻¹ : Matrix m m ℂ) * M = 1 := by rw [← hu]; exact u.inv_mul
    have hM0 : M = 0 := by
      have h1 : M = (↑u⁻¹ : Matrix m m ℂ) * (M * M) := by
        rw [← mul_assoc, hinv, one_mul]
      rw [h, mul_zero] at h1
      exact h1
    have h01 : (0 : Matrix m m ℂ) = 1 := by
      have hmi := u.mul_inv
      rw [hu, hM0, zero_mul] at hmi
      exact hmi
    obtain ⟨i⟩ := (inferInstance : Nonempty m)
    have hC := congrFun (congrFun h01 i) i
    rw [Matrix.zero_apply, Matrix.one_apply_eq] at hC
    exact one_ne_zero hC.symm
  · intro l hl
    by_contra hl0
    rw [spectrum.mem_iff] at hl
    apply hl
    have ha : l⁻¹ * l = 1 := inv_mul_cancel₀ hl0
    have hb : l⁻¹ * l⁻¹ * l = l⁻¹ := by field_simp
    have hc : l * l⁻¹ = 1 := mul_inv_cancel₀ hl0
    have hd : l * (l⁻¹ * l⁻¹) = l⁻¹ := by field_simp
    have key1 : (l • (1 : Matrix m m ℂ) - M) * (l⁻¹ • 1 + (l⁻¹ * l⁻¹) • M) = 1 := by
      simp [sub_mul, mul_add, smul_mul_assoc, mul_smul_comm, smul_smul, smul_add,
        neg_smul, h, ha, hb, hc, hd]
      rw [smul_sub, smul_smul, ha, one_smul]
      abel
    have key2 : (l⁻¹ • 1 + (l⁻¹ * l⁻¹) • M) * (l • (1 : Matrix m m ℂ) - M) = 1 := by
      simp [add_mul, mul_sub, smul_mul_assoc, mul_smul_comm, smul_smul, smul_add,
        neg_smul, h, ha, hb, hc, hd]
    rw [Algebra.algebraMap_eq_smul_one]
    exact ⟨⟨l • (1 : Matrix m m ℂ) - M, l⁻¹ • 1 + (l⁻¹ * l⁻¹) • M, key1, key2⟩, rfl⟩

/-- The index type of the materialization on `n` qubits has `2 ^ n` elements. -/
theorem idxT_card : ∀ n : ℕ, Fintype.card (idxT n) = 2 ^ n := by
  intro n
  induction n with
  | zero => rfl
  | succ n ih =>
    show Fintype.card (Bool × idxT n) = 2 ^ (n + 1)
    rw [Fintype.card_prod, Fintype.card_bool, ih, pow_succ, Nat.mul_comm]

/-- Modelled from the spec: the fermionic operator a₂†a₁₅ built by the
notebook cell `of.FermionOperator('2^ 15')`. -/
def opDemo : FermionOp := FermionOperator [(2, true), (15, false)] 1

theorem opDemo_jw_sq :
    multiplyQ exactTol (jordan_wigner tolerance opDemo) (jordan_wigner tolerance opDemo)
      = [] := by decide

theorem opDemo_jw_wf : QOpWfB 16 (jordan_wigner tolerance opDemo) = true := by decide

theorem opDemo_bk_sq :
    multiplyQ exactTol (bkTransform tolerance 16 opDemo) (bkTransform tolerance 16 opDemo)
      = [] := by decide

theorem opDemo_bk_wf : QOpWfB 16 (bkTransform tolerance 16 opDemo) = true := by decide

theorem opDemo_jw_ne_bk :
    jordan_wigner tolerance opDemo ≠ bkTransform tolerance 16 opDemo := by decide

/-- C4: for the fermionic operator a₂†a₁₅ (the notebook's
`of.FermionOperator('2^ 15')`), the Jordan-Wigner image and the
Bravyi-Kitaev image with n_qubits = 16 are unequal as qubit operators;
the Bravyi-Kitaev transform succeeds at 16 qubits; the materialized
matrices are 2¹⁶-dimensional; and the two matrices have identical
eigenvalue spectra (both are square-zero, so each spectrum is exactly
`{0}` — identical, in particular within 1e-9). -/
theorem claim_C4 :
    jordan_wigner tolerance opDemo ≠ bkTransform tolerance 16 opDemo ∧
    bravyi_kitaev tolerance opDemo 16 = Except.ok (bkTransform tolerance 16 opDemo) ∧
    Fintype.card (idxT 16) = 2 ^ 16 ∧
    spectrum ℂ ((get_sparse_operator 16 (jordan_wigner tolerance opDemo)).map Cplx.toC) =
      spectrum ℂ ((get_sparse_operator 16 (bkTransform tolerance 16 opDemo)).map Cplx.toC) := by
  refine ⟨opDemo_jw_ne_bk, rfl, idxT_card 16, ?_⟩
  have h1 : get_sparse_operator 16 (jordan_wigner tolerance opDemo) *
      get_sparse_operator 16 (jordan_wigner tolerance opDemo) = 0 := by
    rw [← gso_multiplyQ_exact 16 _ _ opDemo_jw_wf opDemo_jw_wf, opDemo_jw_sq, gso_nil]
  have h2 : get_sparse_operator 16 (bkTransform tolerance 16 opDemo) *
      get_sparse_operator 16 (bkTransform tolerance 16 opDemo) = 0 := by
    rw [← gso_multiplyQ_exact 16 _ _ opDemo_bk_wf opDemo_bk_wf, opDemo_bk_sq, gso_nil]
  have hm1 : (get_sparse_operator 16 (jordan_wigner tolerance opDemo)).map Cplx.toC *
      (get_sparse_operator 16 (jordan_wigner tolerance opDemo)).map Cplx.toC = 0 := by
    show (get_sparse_operator 16 (jordan_wigner tolerance opDemo)).map Cplx.toCHom *
      (get_sparse_operator 16 (jordan_wigner tolerance opDemo)).map Cplx.toCHom = 0
    rw [← Matrix.map_mul, h1, Matrix.map_zero _ (map_zero Cplx.toCHom)]
  have hm2 : (get_sparse_operator 16 (bkTransform tolerance 16 opDemo)).map Cplx.toC *
      (get_sparse_operator 16 (bkTransform tolerance 16 opDemo)).map Cplx.toC = 0 := by
    show (get_sparse_operator 16 (bkTransform tolerance 16 opDemo)).map Cplx.toCHom *
      (get_sparse_operator 16 (bkTransform tolerance 16 opDemo)).map Cplx.toCHom = 0
    rw [← Matrix.map_mul, h2, Matrix.map_zero _ (map_zero Cplx.toCHom)]
  rw [spectrum_eq_zero_of_sq_zero _ hm1, spectrum_eq_zero_of_sq_zero _ hm2]

/-! ### The remaining operator-algebra properties -/

/-- Addition of canonical operators is commutative at any tolerance. -/
theorem addOp_comm {K : Type} [DecidableEq K] [KeyC K] (tol : Tol)
    (A B : List (K × Cplx)) : addOp tol A B = addOp tol B A := by
  apply normalizeMap_eq_of_sumCoeff_eq
  intro k
  rw [sumCoeff_append, sumCoeff_append, add_comm]

/-- Pruning a mapping with no below-tolerance entries changes nothing. -/
theorem pruneMap_eq_self_of_wf {K : Type} [DecidableEq K] {tol : Tol}
    {m : List (K × Cplx)} (h : WfMap tol m) : pruneMap tol m = m := by
  rw [pruneMap]
  apply List.filter_eq_self.mpr
  intro e he
  rw [h e he]
  rfl

/-- The anticommutator of annihilation operators on sites `p < q`
vanishes. -/
theorem anticomm_ann_of_lt {p q : ℕ} (h : p < q) :
    addOp tolerance
      (multiplyF tolerance (FermionOperator [(p, false)] 1)
        (FermionOperator [(q, false)] 1))
      (multiplyF tolerance (FermionOperator [(q, false)] 1)
        (FermionOperator [(p, false)] 1)) = [] := by
  have s1 : Cplx.small tolerance 1 = false := by decide
  have sm1 : Cplx.small tolerance (-1) = false := by decide
  have s0 : Cplx.small tolerance 0 = true := by decide
  have hne : p ≠ q := Nat.ne_of_lt h
  have hne' : q ≠ p := Nat.ne_of_gt h
  have hnlt : ¬ q < p := Nat.lt_asymm h
  simp [addOp, FermionOperator, multiplyF, normalizeMap, collectMap, pruneMap, insertAdd,
    fbind, fscale, normalOrderSeq, normalOrderNF, insertFacNF, insertCre,
    insertAnnGo, insertDesc, mapK, NOTerm.toSeq, s1, sm1, s0, kLt, encFermion, lexLt,
    hne, hne', hnlt, h]

/-- C1: for every site p, a_p a_p† + a_p† a_p is the identity operator
with coefficient exactly 1 (the canonical anticommutation relation). -/
theorem claim_C1 (p : ℕ) :
    addOp tolerance
      (multiplyF tolerance (FermionOperator [(p, false)] 1)
        (FermionOperator [(p, true)] 1))
      (multiplyF tolerance (FermionOperator [(p, true)] 1)
        (FermionOperator [(p, false)] 1))
      = FermionOperator [] 1 := by
  have s1 : Cplx.small tolerance 1 = false := by decide
  have sm1 : Cplx.small tolerance (-1) = false := by decide
  have s0 : Cplx.small tolerance 0 = true := by decide
  simp [addOp, FermionOperator, multiplyF, normalizeMap, collectMap, pruneMap, insertAdd,
    fbind, fscale, normalOrderSeq, normalOrderNF, insertFacNF, insertCre,
    insertAnnGo, insertDesc, mapK, NOTerm.toSeq, s1, sm1, s0, kLt, encFermion, lexLt]

/-- C2: for distinct sites p ≠ q, a_p a_q + a_q a_p is the zero operator
(the empty mapping). -/
theorem claim_C2 (p q : ℕ) (h : p ≠ q) :
    addOp tolerance
      (multiplyF tolerance (FermionOperator [(p, false)] 1)
        (FermionOperator [(q, false)] 1))
      (multiplyF tolerance (FermionOperator [(q, false)] 1)
        (FermionOperator [(p, false)] 1)) = [] := by
  rcases Nat.lt_or_ge p q with hlt | hge
  · exact anticomm_ann_of_lt hlt
  · have hlt : q < p := Nat.lt_of_le_of_ne hge (Ne.symm h)
    rw [addOp_comm]
    exact anticomm_ann_of_lt hlt

theorem claim_C2_witness :
    (0 : ℕ) ≠ 1 ∧
    addOp tolerance
      (multiplyF tolerance (FermionOperator [(0, false)] 1)
        (FermionOperator [(1, false)] 1))
      (multiplyF tolerance (FermionOperator [(1, false)] 1)
        (FermionOperator [(0, false)] 1)) = [] :=
  ⟨by decide, claim_C2 0 1 (by decide)⟩

/-- C3: the Jordan-Wigner transform of the number operator a₂†a₂ is
exactly ½(I − Z₂): the identity term with coefficient ½ plus the Z₂ term
with coefficient −½, and nothing else. -/
theorem claim_C3 :
    jordan_wigner tolerance (FermionOperator [(2, true), (2, false)] 1) =
      scalar_multiply tolerance Cplx.half
        (addOp tolerance (QubitOperator [] 1)
          (scalar_multiply tolerance (-1) (QubitOperator [(2, Pauli.Z)] 1))) ∧
    jordan_wigner tolerance (FermionOperator [(2, true), (2, false)] 1) =
      [([], Cplx.half), ([(2, Pauli.Z)], -Cplx.half)] :=
  ⟨by decide, by decide⟩

/-- C5: a₁·a₁ is the zero operator (the empty mapping), and in general the
normal-ordered expansion of any factor sequence with two adjacent equal
ladder factors is the zero mapping, so such a term contributes nothing to
a product. -/
theorem claim_C5 :
    multiplyF tolerance (FermionOperator [(1, false)] 1)
      (FermionOperator [(1, false)] 1) = [] ∧
    ∀ (f : ℕ × Bool) (pre post : List (ℕ × Bool)) (k : List (ℕ × Bool)),
      sumCoeff (normalOrderSeq (pre ++ f :: f :: post)) k = 0 :=
  ⟨by decide, fun f pre post k => sumCoeff_normalOrderSeq_adj_dup f pre post k⟩

/-- C6 (corrected): addition is commutative at every tolerance, and it is
associative when no pruning happens (exact tolerance); associativity at a
positive pruning tolerance is refuted by `claim_C6_counterexample`. -/
theorem claim_C6 :
    (∀ (K : Type) [DecidableEq K] [KeyC K] (tol : Tol) (A B : List (K × Cplx)),
      addOp tol A B = addOp tol B A) ∧
    (∀ (K : Type) [DecidableEq K] [KeyC K] (A B C : List (K × Cplx)),
      addOp exactTol A (addOp exactTol B C) = addOp exactTol (addOp exactTol A B) C) := by
  constructor
  · intro K _ _ tol A B
    exact addOp_comm tol A B
  · intro K _ _ A B C
    apply normalizeMap_eq_of_sumCoeff_eq
    intro k
    rw [sumCoeff_append, sumCoeff_append,
      show addOp exactTol B C = normalizeMap exactTol (B ++ C) from rfl,
      show addOp exactTol A B = normalizeMap exactTol (A ++ B) from rfl,
      sumCoeff_normalizeMap_zero, sumCoeff_normalizeMap_zero,
      sumCoeff_append, sumCoeff_append, add_assoc]

/-- C6 counterexample: with the spec's pruning tolerance 1e-12, addition is
not associative: for A = 3·2⁻⁴⁰·I and B = C = −2⁻³⁹·I (fermionic identity
terms), A+(B+C) prunes to the empty operator while (A+B)+C keeps −2⁻³⁹,
and the two results are not equal even within tolerance. -/
theorem claim_C6_counterexample :
    ¬ is_close_to tolerance
      (addOp tolerance [(([] : List (ℕ × Bool)), ⟨⟨3, 40, Or.inl rfl⟩, 0⟩)]
        (addOp tolerance [(([] : List (ℕ × Bool)), ⟨⟨-1, 39, Or.inl (by decide)⟩, 0⟩)]
          [(([] : List (ℕ × Bool)), ⟨⟨-1, 39, Or.inl (by decide)⟩, 0⟩)]))
      (addOp tolerance
        (addOp tolerance [(([] : List (ℕ × Bool)), ⟨⟨3, 40, Or.inl rfl⟩, 0⟩)]
          [(([] : List (ℕ × Bool)), ⟨⟨-1, 39, Or.inl (by decide)⟩, 0⟩)])
        [(([] : List (ℕ × Bool)), ⟨⟨-1, 39, Or.inl (by decide)⟩, 0⟩)]) := by
  simp only [is_close_to]
  decide

/-- C7: the Bravyi-Kitaev transform fails with
`insufficientQubitCount` exactly when the supplied qubit count is below
the highest touched site index plus one, and succeeds otherwise. -/
theorem claim_C7 (tol : Tol) (A : FermionOp) (n : ℕ) :
    (bravyi_kitaev tol A n = Except.error TransformError.insufficientQubitCount ↔
      n < requiredQubits A) ∧
    (requiredQubits A ≤ n → bravyi_kitaev tol A n = Except.ok (bkTransform tol n A)) := by
  constructor
  · constructor
    · intro herr
      by_contra hn
      rw [bravyi_kitaev, if_neg hn] at herr
      exact Except.noConfusion herr
    · intro hn
      rw [bravyi_kitaev, if_pos hn]
  · intro hn
    rw [bravyi_kitaev, if_neg (by omega)]

theorem claim_C7_witness :
    bravyi_kitaev tolerance opDemo 16 = Except.ok (bkTransform tolerance 16 opDemo) ∧
    (bravyi_kitaev tolerance opDemo 15 =
        Except.error TransformError.insufficientQubitCount ↔
      15 < requiredQubits opDemo) :=
  ⟨(claim_C7 tolerance opDemo 16).2 (by decide), (claim_C7 tolerance opDemo 15).1⟩

/-- C8: every operator-producing operation yields a mapping with no
below-tolerance entries, and on such mappings equality-within-tolerance is
plain mapping equality. -/
theorem claim_C8 (tol : Tol) (n : ℕ) (c : Cplx) (F G : FermionOp) (P Q : QubitOp) :
    WfMap tol (addOp tol F G) ∧
    WfMap tol (scalar_multiply tol c F) ∧
    WfMap tol (multiplyF tol F G) ∧
    WfMap tol (hermitian_conjugateF tol F) ∧
    WfMap tol (addOp tol P Q) ∧
    WfMap tol (scalar_multiply tol c P) ∧
    WfMap tol (multiplyQ tol P Q) ∧
    WfMap tol (hermitian_conjugateQ tol P) ∧
    WfMap tol (jordan_wigner tol F) ∧
    WfMap tol (bkTransform tol n F) ∧
    (WfMap tol P → WfMap tol Q → (is_close_to tol P Q ↔ P = Q)) := by
  refine ⟨wf_normalizeMap _ _, wf_normalizeMap _ _, wf_normalizeMap _ _,
    wf_normalizeMap _ _, wf_normalizeMap _ _, wf_normalizeMap _ _,
    wf_normalizeMap _ _, wf_normalizeMap _ _, wf_normalizeMap _ _,
    wf_normalizeMap _ _, ?_⟩
  intro hP hQ
  unfold is_close_to
  rw [pruneMap_eq_self_of_wf hP, pruneMap_eq_self_of_wf hQ]

theorem claim_C8_witness :
    WfMap tolerance (multiplyF tolerance [] []) ∧
    (is_close_to tolerance ([] : QubitOp) [] ↔ ([] : QubitOp) = []) := by
  obtain ⟨h1, h2, h3, h4, h5, h6, h7, h8, h9, h10, h11⟩ :=
    claim_C8 tolerance 2 1 [] [] [] []
  exact ⟨h3, h11 (fun _ he => nomatch he) (fun _ he => nomatch he)⟩

/-! ### The QAOA exercise notebook

The remaining properties are about the plain Python source of
`QAOA -- Exercise.ipynb`: the indentation structure of its cells and the
control flow of `run_qaoa`.  Lines are embedded with their exact
indentation, whether they end in a colon (opening an indented block) and
whether they are comment/blank lines, which Python ignores when looking
for the indented block a header requires. -/

/-- One logical source line of a notebook cell. -/
structure PyLine where
  text : String
  indent : ℕ
  opensBlock : Bool
  isComment : Bool

/-- The indentation of the next non-comment line, if any. -/
def nextCode : List PyLine → Option ℕ
  | [] => none
  | l :: ls => if l.isComment then nextCode ls else some l.indent

/-- Python's indented-block rule over a cell: every block-opening
statement must be followed by a statement with strictly larger
indentation (comment and blank lines do not count). -/
def compilesOK : List PyLine → Bool
  | [] => true
  | l :: ls =>
    if l.isComment then compilesOK ls
    else if l.opensBlock then
      (match nextCode ls with
       | none => false
       | some i => decide (l.indent < i)) && compilesOK ls
    else compilesOK ls

/-- The runtime errors relevant to this notebook. -/
inductive PyError where
  | indentationError
  | nameError
  | assertionError (msg : String)
  | typeError (msg : String)
deriving DecidableEq, Repr

/-- The source lines of the `pauli_sum_maxcut` cell: the inner `for`
header is followed only by comment lines and then a dedented statement. -/
def pauli_sum_maxcut_cell : List PyLine :=
  [⟨"def pauli_sum_maxcut(graph):", 0, true, false⟩,
   ⟨"(docstring)", 4, false, false⟩,
   ⟨"paulisum = 0", 4, false, false⟩,
   ⟨"# graph.adj is a dict with key node, value neighbors dict", 4, false, true⟩,
   ⟨"for i, nbrs in graph.adj.items():", 4, true, false⟩,
   ⟨"# nbrs is a dict itself with key neighboring node, value edge attributes dict",
     8, false, true⟩,
   ⟨"# the weight of the edge can be extracted from eattr[weight]", 8, false, true⟩,
   ⟨"for j, eattr in nbrs.items():", 8, true, false⟩,
   ⟨"# add up contribution from current edge to paulisum", 12, false, true⟩,
   ⟨"# TODO", 12, false, true⟩,
   ⟨"", 4, false, true⟩,
   ⟨"paulisum *= 0.5", 4, false, false⟩,
   ⟨"return paulisum", 4, false, false⟩]

/-- The source lines of the `apply_hadamards` cell: its body is only the
docstring and a comment, so the cell compiles but the function returns
`None`. -/
def apply_hadamards_cell : List PyLine :=
  [⟨"def apply_hadamards(L):", 0, true, false⟩,
   ⟨"(docstring)", 4, false, false⟩,
   ⟨"# TODO", 4, false, true⟩]

/-- Executing a cell: a cell whose lines violate the indented-block rule
raises `IndentationError` and binds nothing. -/
def run_cell (c : List PyLine) : Except PyError Unit :=
  if compilesOK c then Except.ok () else Except.error PyError.indentationError

/-- Invoking `pauli_sum_maxcut` on any argument: its defining cell failed
to compile, so the name was never bound and the call raises `NameError`
before anything else can happen. -/
def invoke_pauli_sum_maxcut (α : Type) (_ : α) : Except PyError Unit :=
  if compilesOK pauli_sum_maxcut_cell then Except.ok () else Except.error PyError.nameError

/-- C9: the `pauli_sum_maxcut` cell as written violates the indented-block
rule (the inner `for` has no body), so executing the cell raises
`IndentationError`, and every invocation of the function crashes with
`NameError` instead of returning a PauliSum value. -/
theorem claim_C9 :
    compilesOK pauli_sum_maxcut_cell = false ∧
    run_cell pauli_sum_maxcut_cell = Except.error PyError.indentationError ∧
    ∀ (α : Type) (g : α),
      invoke_pauli_sum_maxcut α g = Except.error PyError.nameError :=
  ⟨rfl, rfl, fun _ _ => rfl⟩

/-- Exact comparison of dyadic rationals, by cross multiplication. -/
def Dyad.le (x y : Dyad) : Bool :=
  decide (x.num * 2 ^ y.exp ≤ y.num * 2 ^ x.exp)

theorem Dyad.le_iff (x y : Dyad) : Dyad.le x y = true ↔ x.toQ ≤ y.toQ := by
  rw [Dyad.le, decide_eq_true_iff, toQ, toQ,
    div_le_div_iff₀ (by positivity) (by positivity)]
  constructor <;> intro h <;> exact_mod_cast h

/-- The IEEE-754 double value of `np.pi`: exactly 884279719003555 / 2⁴⁸. -/
def npPi : Dyad := ⟨884279719003555, 48, Or.inl (by decide)⟩

/-- The IEEE-754 double value of `2*np.pi` (exact doubling). -/
def twoNpPi : Dyad := ⟨884279719003555, 47, Or.inl (by decide)⟩

/-- A NetworkX-style graph, as far as this notebook reads it. -/
structure PyGraph where
  nodes : List ℕ
  edges : List (ℕ × ℕ)

/-- A pyQuil Program, as far as this notebook constructs one. -/
inductive PyProgram where
  | mk : List String → PyProgram

/-- `apply_hadamards` as defined: a compiling cell whose body is only the
docstring, so the call returns `None` (no Program). -/
def apply_hadamards (_ : List ℕ) : Option PyProgram := none

/-- `run_qaoa` as written: both asserts run first (exact float
comparisons against the double `np.pi`), then the program construction
starts with `p += apply_hadamards(...)`, which raises
`TypeError: Invalid instruction: None` since `apply_hadamards` returns
`None`; were that line ever fixed, the next line calls the unbound
`pauli_sum_maxcut` and raises `NameError`. -/
def run_qaoa (graph : PyGraph) (beta gamma : Dyad) : Except PyError PyProgram :=
  if (Dyad.le (-npPi) beta && Dyad.le beta npPi) = false then
    Except.error (PyError.assertionError "beta is not within the range [-pi, pi]")
  else if (Dyad.le 0 gamma && Dyad.le gamma twoNpPi) = false then
    Except.error (PyError.assertionError "gamma is not within the range [0, 2*pi]")
  else
    match apply_hadamards graph.nodes with
    | none => Except.error (PyError.typeError "Invalid instruction: None")
    | some _ =>
      if compilesOK pauli_sum_maxcut_cell then Except.ok (PyProgram.mk [])
      else Except.error PyError.nameError

/-- C10: `run_qaoa` raises the beta `AssertionError` exactly when beta is
outside [−π, π] (exact double comparison; the Boolean guard agrees with
the rational-value comparison by the first conjunct), raises the gamma
`AssertionError` when beta is in range but gamma is outside [0, 2π], and
for in-range angles — including all four boundary values — no assertion
fires (the crash that does occur later is a `TypeError`, after the
asserts and before any program is returned). -/
theorem claim_C10 (graph : PyGraph) (beta gamma : Dyad) :
    (∀ x y : Dyad, Dyad.le x y = true ↔ x.toQ ≤ y.toQ) ∧
    ((Dyad.le (-npPi) beta && Dyad.le beta npPi) = false →
      run_qaoa graph beta gamma =
        Except.error (PyError.assertionError "beta is not within the range [-pi, pi]")) ∧
    ((Dyad.le (-npPi) beta && Dyad.le beta npPi) = true →
      (Dyad.le 0 gamma && Dyad.le gamma twoNpPi) = false →
      run_qaoa graph beta gamma =
        Except.error (PyError.assertionError "gamma is not within the range [0, 2*pi]")) ∧
    ((Dyad.le (-npPi) beta && Dyad.le beta npPi) = true →
      (Dyad.le 0 gamma && Dyad.le gamma twoNpPi) = true →
      ∀ msg, run_qaoa graph beta gamma ≠ Except.error (PyError.assertionError msg)) ∧
    (∀ msg, run_qaoa graph (-npPi) 0 ≠ Except.error (PyError.assertionError msg)) ∧
    (∀ msg, run_qaoa graph npPi twoNpPi ≠ Except.error (PyError.assertionError msg)) := by
  have hrun : ∀ b g : Dyad, (Dyad.le (-npPi) b && Dyad.le b npPi) = true →
      (Dyad.le 0 g && Dyad.le g twoNpPi) = true →
      run_qaoa graph b g = Except.error (PyError.typeError "Invalid instruction: None") := by
    intro b g h1 h2
    rw [run_qaoa, if_neg fun hh => Bool.noConfusion (h1.symm.trans hh),
      if_neg fun hh => Bool.noConfusion (h2.symm.trans hh)]
    rfl
  refine ⟨Dyad.le_iff, ?_, ?_, ?_, ?_, ?_⟩
  · intro h1
    rw [run_qaoa, if_pos h1]
  · intro h1 h2
    rw [run_qaoa, if_neg fun hh => Bool.noConfusion (h1.symm.trans hh), if_pos h2]
  · intro h1 h2 msg hcon
    rw [hrun beta gamma h1 h2] at hcon
    exact PyError.noConfusion (Except.error.inj hcon)
  · intro msg hcon
    rw [hrun (-npPi) 0 (by decide) (by decide)] at hcon
    exact PyError.noConfusion (Except.error.inj hcon)
  · intro msg hcon
    rw [hrun npPi twoNpPi (by decide) (by decide)] at hcon
    exact PyError.noConfusion (Except.error.inj hcon)

theorem claim_C10_witness :
    ((Dyad.le (-npPi) ⟨4, 0, Or.inr rfl⟩ && Dyad.le ⟨4, 0, Or.inr rfl⟩ npPi) = false ∧
      run_qaoa ⟨[0, 1], [(0, 1)]⟩ ⟨4, 0, Or.inr rfl⟩ 0 =
        Except.error (PyError.assertionError "beta is not within the range [-pi, pi]")) ∧
    ((Dyad.le (-npPi) 0 && Dyad.le 0 npPi) = true ∧
      (Dyad.le 0 (-npPi) && Dyad.le (-npPi) twoNpPi) = false ∧
      run_qaoa ⟨[0, 1], [(0, 1)]⟩ 0 (-npPi) =
        Except.error (PyError.assertionError "gamma is not within the range [0, 2*pi]")) ∧
    ∀ msg, run_qaoa ⟨[0, 1], [(0, 1)]⟩ npPi twoNpPi ≠
      Except.error (PyError.assertionError msg) :=
  ⟨⟨by decide, (claim_C10 ⟨[0, 1], [(0, 1)]⟩ ⟨4, 0, Or.inr rfl⟩ 0).2.1 (by decide)⟩,
   ⟨by decide, by decide,
     (claim_C10 ⟨[0, 1], [(0, 1)]⟩ 0 (-npPi)).2.2.1 (by decide) (by decide)⟩,
   fun msg =>
     (claim_C10 ⟨[0, 1], [(0, 1)]⟩ npPi twoNpPi).2.2.2.1 (by decide) (by decide) msg⟩

end EqusPy
